import Mathlib

/-!
ADS_set: a hash set with separate chaining

A shallow embedding of `src/ADS_set.h` and proofs of its specified behaviour.

Modelling conventions.

* A chain (the singly linked list hanging off one bucket) is a `List Key`, front
  first.  An `Element *` is the part of its chain that starts at the element:
  `[]` is the null pointer, `k :: rest` is an element with `key = k` and
  `next = rest`.  Inside one chain two such parts are equal exactly when they
  start at the same element, because they have different lengths otherwise.
* `table` is the list of the `table_size + 1` slots; `table[idx]` is
  `table.getD idx []`.
* `size_t` is `Nat`: the counters stay far below `2 ^ 64` for every table that
  fits into memory.
* `std::hash<Key>` is the field `hasher`, `std::equal_to<Key>` is equality of
  `Key`, the template parameter `N` is the field `N`.
* The member `max_lf` is the `float` constant `0.7`.  The two computations the
  code makes with it are the fields of `MaxLf`; everything is proved for every
  arithmetic that obeys the two laws stated there.  `f32Lf` is that arithmetic
  in IEEE single precision (round to nearest, ties to even), `exactLf` is the
  exact fraction `7 / 10`.
-/

namespace ADS

/-- The two computations of the source that involve the member `max_lf`
(`float`, `0.7`).  `ge table_size n` is the test `table_size * max_lf >= n`
of `reserve`, and `div current_size` is `size_type(current_size / max_lf)` of
`rehash`.  The laws hold for single precision arithmetic: a table twice as
large as the request always passes the test, and `0 / max_lf` is `0`. -/
structure MaxLf where
  ge : Nat → Nat → Bool
  div : Nat → Nat
  ge_of_double : ∀ table_size n : Nat, 2 * n ≤ table_size → ge table_size n = true
  div_zero : div 0 = 0

/-- The load factor `0.7` read as the exact fraction `7 / 10`.  It serves the
concrete examples: their products and quotients (such as `11 * 0.7 = 7.7`
against 8 or 9, or `8 / 0.7 = 11.43`) are far from a rounding boundary, so
single precision arithmetic gives the same results. -/
def exactLf : MaxLf where
  ge := fun table_size n => decide (10 * n ≤ 7 * table_size)
  div := fun current_size => 10 * current_size / 7
  ge_of_double := by
    intro table_size n hle
    simp only [decide_eq_true_eq]
    omega
  div_zero := by decide

/-- What the class template is instantiated with: the hash function
(`hasher`), the minimum capacity (`N`) and the load factor arithmetic. -/
structure Params (Key : Type) where
  hasher : Key → Nat
  N : Nat
  max_lf : MaxLf

/-- The data members `table`, `table_size` and `current_size`. -/
structure ADS_set (Key : Type) where
  table : List (List Key)
  table_size : Nat
  current_size : Nat
deriving DecidableEq

/-- The data members of `ADS_set::Iterator`: `e`, `line`, `end` and `idx`. -/
structure Iterator (Key : Type) where
  e : List Key
  line : List (List Key)
  end_ : Nat
  idx : Nat
deriving DecidableEq

variable {Key : Type} [DecidableEq Key]

/-- The state of the members before a constructor body runs:
`table {nullptr}`, `table_size {0}`, `current_size {0}`. -/
def ADS_set.init : ADS_set Key := ⟨[], 0, 0⟩

/-- `h(v)` is `hasher{}(v) % table_size`. -/
def ADS_set.h (c : Params Key) (s : ADS_set Key) (v : Key) : Nat :=
  c.hasher v % s.table_size

/-- `add(v)`: a new element becomes the head of the chain of bucket `h(v)`;
the result is the pointer to it and the new state. -/
def ADS_set.add (c : Params Key) (s : ADS_set Key) (v : Key) : List Key × ADS_set Key :=
  let idx := s.h c v
  let help : List Key :=
    if s.table.getD idx [] = [] then [v] else v :: s.table.getD idx []
  (help, { s with table := s.table.set idx help, current_size := s.current_size + 1 })

/-- The loop of `locate`, started at `help`. -/
def locateFrom (key : Key) : List Key → List Key
  | [] => []
  | k :: rest => if k = key then k :: rest else locateFrom key rest

/-- `locate(key)`: the first element of the chain of bucket `h(key)` whose key
equals `key`, or the null pointer. -/
def ADS_set.locate (c : Params Key) (s : ADS_set Key) (key : Key) : List Key :=
  locateFrom key (s.table.getD (s.h c key) [])

/-- `size()`. -/
def ADS_set.size (s : ADS_set Key) : Nat := s.current_size

/-- `empty()`. -/
def ADS_set.empty (s : ADS_set Key) : Bool := s.current_size == 0

/-- `count(key)` is `locate(key) != nullptr`, converted to `size_type`. -/
def ADS_set.count (c : Params Key) (s : ADS_set Key) (key : Key) : Nat :=
  if s.locate c key ≠ [] then 1 else 0

/-- The loop of `Iterator::skip`.  It runs at most `end - idx` times, which is
the first argument. -/
def Iterator.skipLoop (line : List (List Key)) (end_ : Nat) :
    Nat → List Key → Nat → List Key × Nat
  | 0, e, idx => (e, idx)
  | fuel + 1, e, idx =>
    if e = [] ∧ idx < end_ then skipLoop line end_ fuel (line.getD (idx + 1) []) (idx + 1)
    else (e, idx)

/-- `Iterator::skip()`. -/
def Iterator.skip (it : Iterator Key) : Iterator Key :=
  let r := Iterator.skipLoop it.line it.end_ (it.end_ - it.idx) it.e it.idx
  { it with e := r.1, idx := r.2 }

/-- The constructor `Iterator(e, line, end, idx)`, which skips when `e` is
null. -/
def Iterator.new (e : List Key) (line : List (List Key)) (end_ idx : Nat) : Iterator Key :=
  if e = [] then Iterator.skip ⟨e, line, end_, idx⟩ else ⟨e, line, end_, idx⟩

/-- `operator*`: the key of the element `e`; `none` when `e` is null, where the
source dereferences a null pointer. -/
def Iterator.deref (it : Iterator Key) : Option Key := it.e.head?

/-- Prefix `operator++`: `e = e->next; skip();`; `none` when `e` is null. -/
def Iterator.next (it : Iterator Key) : Option (Iterator Key) :=
  match it.e with
  | [] => none
  | _ :: rest => some (Iterator.skip { it with e := rest })

/-- `operator==` of iterators compares the members `e`. -/
def Iterator.eq (lhs rhs : Iterator Key) : Bool := decide (lhs.e = rhs.e)

/-- `operator!=` of iterators. -/
def Iterator.ne (lhs rhs : Iterator Key) : Bool := !(Iterator.eq lhs rhs)

/-- `begin()`. -/
def ADS_set.begin (s : ADS_set Key) : Iterator Key :=
  Iterator.new (s.table.getD 0 []) s.table s.table_size 0

/-- `end()`. -/
def ADS_set.end_ (s : ADS_set Key) : Iterator Key :=
  Iterator.new (s.table.getD s.table_size []) s.table s.table_size s.table_size

/-- `find(key)`. -/
def ADS_set.find (c : Params Key) (s : ADS_set Key) (key : Key) : Iterator Key :=
  if s.locate c key ≠ [] then Iterator.new (s.locate c key) s.table s.table_size (s.h c key)
  else s.end_

/-- The two nested loops that `rehash` and the copy constructor share: every
key of every chain of `old_table`, bucket by bucket and front to back, is
passed to `add`. -/
def ADS_set.addAll (c : Params Key) (old_table : List (List Key)) (old_table_size : Nat)
    (s : ADS_set Key) : ADS_set Key :=
  (List.range old_table_size).foldl
    (fun acc idx => (old_table.getD idx []).foldl (fun a k => (a.add c k).2) acc) s

/-- `rehash(n)`. -/
def ADS_set.rehash (c : Params Key) (s : ADS_set Key) (n : Nat) : ADS_set Key :=
  let new_table_size := max c.N (max n (c.max_lf.div s.current_size))
  let new_table : List (List Key) := List.replicate (new_table_size + 1) []
  ADS_set.addAll c s.table s.table_size ⟨new_table, new_table_size, 0⟩

/-- The loop of `reserve`: `while (new_table_size * max_lf < n)
++(new_table_size *= 2);`.  The first argument bounds the number of rounds. -/
def reserveLoop (lf : MaxLf) (n : Nat) : Nat → Nat → Nat
  | 0, new_table_size => new_table_size
  | fuel + 1, new_table_size =>
    if lf.ge new_table_size n then new_table_size
    else reserveLoop lf n fuel (2 * new_table_size + 1)

/-- `reserve(n)`.  The loop is given `2 * n` rounds, more than it can use. -/
def ADS_set.reserve (c : Params Key) (s : ADS_set Key) (n : Nat) : ADS_set Key :=
  if c.max_lf.ge s.table_size n then s
  else s.rehash c (reserveLoop c.max_lf n (2 * n) s.table_size)

/-- The default constructor `ADS_set() { rehash(N); }`. -/
def ADS_set.new (c : Params Key) : ADS_set Key :=
  (ADS_set.init : ADS_set Key).rehash c c.N

/-- `insert(key)`: the returned pair and the new state. -/
def ADS_set.insert (c : Params Key) (s : ADS_set Key) (key : Key) :
    (Iterator Key × Bool) × ADS_set Key :=
  if s.locate c key ≠ [] then
    ((Iterator.new (s.locate c key) s.table s.table_size (s.h c key), false), s)
  else
    let r := (s.reserve c (s.current_size + 1)).add c key
    ((Iterator.new r.1 r.2.table r.2.table_size (r.2.h c key), true), r.2)

/-- `insert(first, last)`, the range given as the list of its keys. -/
def ADS_set.insertRange (c : Params Key) (s : ADS_set Key) (keys : List Key) : ADS_set Key :=
  keys.foldl
    (fun acc k =>
      if acc.count c k = 0 then ((acc.reserve c (acc.current_size + 1)).add c k).2 else acc)
    s

/-- `insert(std::initializer_list)`. -/
def ADS_set.insertList (c : Params Key) (s : ADS_set Key) (ilist : List Key) : ADS_set Key :=
  s.insertRange c ilist

/-- The loop of `erase`: walks from `help` to the element `e` and unlinks it;
the result is the chain from `help` on without `e`.  `none` when the walk
reaches the end of the chain, where the source dereferences a null pointer. -/
def eraseWalk (e : List Key) : List Key → Option (List Key)
  | [] => none
  | k :: rest => if k :: rest = e then some rest else (eraseWalk e rest).map (fun r => k :: r)

/-- `erase(key)`: the returned count and the new state. -/
def ADS_set.erase (c : Params Key) (s : ADS_set Key) (key : Key) :
    Option (Nat × ADS_set Key) :=
  if s.locate c key ≠ [] then
    let idx := s.h c key
    (eraseWalk (s.locate c key) (s.table.getD idx [])).map fun chain =>
      (1, { s with table := s.table.set idx chain, current_size := s.current_size - 1 })
  else some (0, s)

/-- Member `swap`: the two objects exchange their state. -/
def ADS_set.swap (s other : ADS_set Key) : ADS_set Key × ADS_set Key := (other, s)

/-- `clear()`: swaps with a default constructed set, which is then destroyed. -/
def ADS_set.clear (c : Params Key) (s : ADS_set Key) : ADS_set Key :=
  (s.swap (ADS_set.new c)).1

/-- The copy constructor. -/
def ADS_set.copy (c : Params Key) (other : ADS_set Key) : ADS_set Key :=
  ADS_set.addAll c other.table other.table_size
    ((ADS_set.init : ADS_set Key).rehash c other.table_size)

/-- Copy assignment: `ADS_set tmp {other}; swap(tmp);`. -/
def ADS_set.assign (c : Params Key) (s other : ADS_set Key) : ADS_set Key :=
  (s.swap (ADS_set.copy c other)).1

/-- `operator==` of sets. -/
def ADS_set.eq (c : Params Key) (lhs rhs : ADS_set Key) : Bool :=
  if lhs.current_size ≠ rhs.current_size then false
  else (List.range lhs.table_size).all fun idx =>
    (lhs.table.getD idx []).all fun k => decide (rhs.count c k ≠ 0)

/-- `operator!=` of sets. -/
def ADS_set.ne (c : Params Key) (lhs rhs : ADS_set Key) : Bool := !(ADS_set.eq c lhs rhs)

/-- The keys of all elements, in the order of the chains of the buckets
`0 .. table_size - 1`. -/
def ADS_set.keys (s : ADS_set Key) : List Key := (s.table.take s.table_size).flatten

/-- Well-formed states: the table has `table_size + 1` slots, the capacity is
positive and at least `N`, the sentinel slot is empty, every key sits in the
bucket its hash selects, no key occurs twice, and `current_size` counts the
elements. -/
def WF (c : Params Key) (s : ADS_set Key) : Prop :=
  s.table.length = s.table_size + 1 ∧
  0 < s.table_size ∧
  c.N ≤ s.table_size ∧
  s.table.getD s.table_size [] = [] ∧
  (∀ idx < s.table_size, ∀ k ∈ s.table.getD idx [], c.hasher k % s.table_size = idx) ∧
  s.keys.Nodup ∧
  s.current_size = s.keys.length

instance (c : Params Key) (s : ADS_set Key) : Decidable (WF c s) := by
  unfold WF
  infer_instance

/-- Parameters of the running example: integer keys, which `std::hash` maps to
themselves, the default `N = 11`, load factor `7 / 10`. -/
def natParams : Params Nat := ⟨fun k => k, 11, exactLf⟩

/-- Calls `insert(key)` for every key of `keys`, in order. -/
def ADS_set.insertEach (c : Params Key) (s : ADS_set Key) (keys : List Key) : ADS_set Key :=
  keys.foldl (fun acc k => (acc.insert c k).2) s

/-- The set of the running example: the keys 5, 12, 5, 7 inserted into an empty
set with `N = 11`. -/
def exampleSet : ADS_set Nat :=
  ⟨[[], [12], [], [], [], [5], [], [7], [], [], [], []], 11, 3⟩

/-- The states that a sequence of `insert` calls (of one key, or of a range or
list of keys) and `erase(key)` calls reaches from a default constructed set. -/
inductive InsertEraseReachable (c : Params Key) : ADS_set Key → Prop
  | new : InsertEraseReachable c (ADS_set.new c)
  | insert (s : ADS_set Key) (k : Key) :
      InsertEraseReachable c s → InsertEraseReachable c (s.insert c k).2
  | insertRange (s : ADS_set Key) (keys : List Key) :
      InsertEraseReachable c s → InsertEraseReachable c (s.insertRange c keys)
  | erase (s : ADS_set Key) (k : Key) (r : Nat) (s2 : ADS_set Key) :
      InsertEraseReachable c s → s.erase c k = some (r, s2) → InsertEraseReachable c s2

/-- The loop `for (auto it = first; it != last; ++it)` that records `*it` in
every round.  The first argument bounds the number of rounds: the result is
`none` when the bound is used up before `it == last`, and where the source
would dereference or increment an iterator whose `e` is null. -/
def collectFrom (last : Iterator Key) : Nat → Iterator Key → Option (List Key)
  | 0, it => if it.eq last then some [] else none
  | fuel + 1, it =>
    if it.eq last then some []
    else
      match it.deref, it.next with
      | some k, some it2 => (collectFrom last fuel it2).map (fun r => k :: r)
      | _, _ => none

/-- The keys met on the way from `begin()` to `end()`, in at most `rounds`
increments. -/
def ADS_set.collect (s : ADS_set Key) (rounds : Nat) : Option (List Key) :=
  collectFrom s.end_ rounds s.begin

/-- The constructor `ADS_set(std::initializer_list)`: `ADS_set{}`, then
`insert(ilist)`. -/
def ADS_set.ofList (c : Params Key) (ilist : List Key) : ADS_set Key :=
  (ADS_set.new c).insertList c ilist

/-- The constructor `ADS_set(InputIt first, InputIt last)`: `ADS_set{}`, then
`insert(first, last)`. -/
def ADS_set.ofRange (c : Params Key) (keys : List Key) : ADS_set Key :=
  (ADS_set.new c).insertRange c keys

/-- `operator=(std::initializer_list)`: `ADS_set tmp {ilist}; swap(tmp);`. -/
def ADS_set.assignList (c : Params Key) (s : ADS_set Key) (ilist : List Key) : ADS_set Key :=
  (s.swap (ADS_set.ofList c ilist)).1

/-- The states that an object can be in: made by one of the constructors and
changed by the public member functions.  The other object of a copy, a copy
assignment or a swap is itself in such a state. -/
inductive Reachable (c : Params Key) : ADS_set Key → Prop
  | new : Reachable c (ADS_set.new c)
  | ofList (ilist : List Key) : Reachable c (ADS_set.ofList c ilist)
  | ofRange (keys : List Key) : Reachable c (ADS_set.ofRange c keys)
  | copy (other : ADS_set Key) : Reachable c other → Reachable c (ADS_set.copy c other)
  | assign (s other : ADS_set Key) :
      Reachable c s → Reachable c other → Reachable c (s.assign c other)
  | assignList (s : ADS_set Key) (ilist : List Key) :
      Reachable c s → Reachable c (s.assignList c ilist)
  | insert (s : ADS_set Key) (k : Key) : Reachable c s → Reachable c (s.insert c k).2
  | insertRange (s : ADS_set Key) (keys : List Key) :
      Reachable c s → Reachable c (s.insertRange c keys)
  | insertList (s : ADS_set Key) (ilist : List Key) :
      Reachable c s → Reachable c (s.insertList c ilist)
  | erase (s : ADS_set Key) (k : Key) (r : Nat) (s2 : ADS_set Key) :
      Reachable c s → s.erase c k = some (r, s2) → Reachable c s2
  | clear (s : ADS_set Key) : Reachable c s → Reachable c (s.clear c)
  | swapThis (s other : ADS_set Key) :
      Reachable c s → Reachable c other → Reachable c (s.swap other).1
  | swapOther (s other : ADS_set Key) :
      Reachable c s → Reachable c other → Reachable c (s.swap other).2

/-- The number of elements found by walking the chains of the buckets
`0 .. table_size - 1`. -/
def ADS_set.nodeCount (s : ADS_set Key) : Nat :=
  ((List.range s.table_size).map fun idx => (s.table.getD idx []).length).sum

/-- The slot indices at which the loop of `Iterator::skip` evaluates
`line[idx]`, in order; the control flow is that of `skipLoop`. -/
def Iterator.skipLoopReads (line : List (List Key)) (end_ : Nat) :
    Nat → List Key → Nat → List Nat
  | 0, _, _ => []
  | fuel + 1, e, idx =>
    if e = [] ∧ idx < end_ then
      (idx + 1) :: skipLoopReads line end_ fuel (line.getD (idx + 1) []) (idx + 1)
    else []

/-- The slot indices read by `Iterator::skip()`. -/
def Iterator.skipReads (it : Iterator Key) : List Nat :=
  Iterator.skipLoopReads it.line it.end_ (it.end_ - it.idx) it.e it.idx

/-- The slot indices read by the constructor `Iterator(e, line, end, idx)`. -/
def Iterator.newReads (e : List Key) (line : List (List Key)) (end_ idx : Nat) : List Nat :=
  if e = [] then Iterator.skipReads ⟨e, line, end_, idx⟩ else []

/-- The slot indices read by prefix `operator++`. -/
def Iterator.nextReads (it : Iterator Key) : List Nat :=
  match it.e with
  | [] => []
  | _ :: rest => Iterator.skipReads { it with e := rest }

/-- The slot indices read by `begin()`: `table[0]`, then those of the
constructor. -/
def ADS_set.beginReads (s : ADS_set Key) : List Nat :=
  0 :: Iterator.newReads (s.table.getD 0 []) s.table s.table_size 0

/-- The slot indices read by `end()`: `table[table_size]`, then those of the
constructor. -/
def ADS_set.endReads (s : ADS_set Key) : List Nat :=
  s.table_size ::
    Iterator.newReads (s.table.getD s.table_size []) s.table s.table_size s.table_size

/-- The keys 0, ..., 7 inserted one by one into an empty set with `N = 11`: the
eighth insertion grows the table from 11 to 23 buckets. -/
def eightSet : ADS_set Nat :=
  ⟨[[0], [1], [2], [3], [4], [5], [6], [7], [], [], [], [], [], [], [], [], [], [], [], [],
    [], [], [], []], 23, 8⟩

/-- What every sensible evaluation of the load test `table_size * max_lf >= n`
obeys, single precision included: a larger table passes whatever a smaller one
passes, and a smaller request passes whatever a larger one passes. -/
def MaxLf.Monotone (lf : MaxLf) : Prop :=
  (∀ a b n : Nat, a ≤ b → lf.ge a n = true → lf.ge b n = true) ∧
  (∀ a m n : Nat, m ≤ n → lf.ge a n = true → lf.ge a m = true)

/-- The number of low bits of `a` that do not fit into the 24 bit significand
of a `float`: the least `e` with `a < 2 ^ (24 + e)`.  The first argument bounds
the number of halvings. -/
def excessBits : Nat → Nat → Nat
  | 0, _ => 0
  | fuel + 1, a => if a < 2 ^ 24 then 0 else excessBits fuel (a / 2) + 1

/-- The integer nearest to `num / den`, a tie going to the even one. -/
def nearestEven (num den : Nat) : Nat :=
  if 2 * (num % den) < den ∨ (2 * (num % den) = den ∧ num / den % 2 = 0) then num / den
  else num / den + 1

/-- The `float` nearest to the integer `a` (the conversion of a `size_type` to
`float`, and the rounding of any integer to 24 significant bits; round to
nearest, ties to even). -/
def round24 (a : Nat) : Nat :=
  nearestEven a (2 ^ excessBits a a) * 2 ^ excessBits a a

/-- The test `table_size * max_lf >= n` in single precision.  `max_lf` is the
`float` nearest to 0.7, which is `11744051 / 2 ^ 24`.  Both integers are
converted to `float`, the product is rounded to `float`, and both sides are
compared after scaling by `2 ^ 24`. -/
def f32ge (table_size n : Nat) : Bool :=
  decide (round24 n * 2 ^ 24 ≤ round24 (round24 table_size * 11744051))

/-- The number of binary places behind the point that a `float` below
`2 ^ 23` with integer part `f >= 1` has: the least `s` with `2 ^ 23 <= f * 2 ^ s`. -/
def scaleBits : Nat → Nat → Nat
  | 0, _ => 0
  | fuel + 1, f => if 2 ^ 23 ≤ f then 0 else scaleBits fuel (2 * f) + 1

/-- `size_type(current_size / max_lf)` in single precision: `current_size` is
converted to `float`, the quotient by `11744051 / 2 ^ 24` is rounded to `float`
and then cut to an integer. -/
def f32div (current_size : Nat) : Nat :=
  let a := round24 current_size * 2 ^ 24
  let b := 11744051
  if a / b = 0 then 0
  else if 2 ^ 23 ≤ a / b then
    nearestEven a (b * 2 ^ excessBits (a / b) (a / b)) * 2 ^ excessBits (a / b) (a / b)
  else
    nearestEven (a * 2 ^ scaleBits 23 (a / b)) b / 2 ^ scaleBits 23 (a / b)

/-- The load factor arithmetic of the source in IEEE single precision.  The
first disjunct of `ge` only serves the law `ge_of_double`; it never changes the
value (`f32Lf_ge`). -/
def f32Lf : MaxLf where
  ge := fun table_size n => decide (2 * n ≤ table_size) || f32ge table_size n
  div := f32div
  ge_of_double := by
    intro table_size n hle
    simp [hle]
  div_zero := by decide

/-- Integer keys, the default `N = 11`, single precision load factor. -/
def f32Params : Params Nat := ⟨fun k => k, 11, f32Lf⟩

/-- What `insert` of a key that the set does not contain does to the pair
`(table_size, current_size)`: `reserve(current_size + 1)`, which keeps the
table or rehashes to `max(N, max(new_table_size, size_type(current_size /
max_lf)))`, and then `add`. -/
def loadStep (c : Params Key) (p : Nat × Nat) : Nat × Nat :=
  if c.max_lf.ge p.1 (p.2 + 1) then (p.1, p.2 + 1)
  else
    (max c.N (max (reserveLoop c.max_lf (p.2 + 1) (2 * (p.2 + 1)) p.1) (c.max_lf.div p.2)),
      p.2 + 1)

/-- Follows insertions of new keys run by run: for every entry `m` one
insertion (which may grow the table) and then `m` more that pass the load
test; `none` when the last of these `m` would not pass. -/
def followPlan (c : Params Key) : List Nat → Nat × Nat → Option (Nat × Nat)
  | [], p => some p
  | m :: rest, p =>
    if c.max_lf.ge (loadStep c p).1 ((loadStep c p).2 + m) then
      followPlan c rest ((loadStep c p).1, (loadStep c p).2 + m)
    else none

/-- The number of insertions that a plan describes. -/
def planCount : List Nat → Nat
  | [] => 0
  | m :: rest => planCount rest + (m + 1)

/-- The runs of insertions of new keys between the growths of a table that
starts with 11 buckets, in single precision: 7 keys fit into 11 buckets, 9 more
into 23, and so on up to 12582911 buckets. -/
def growthPlan : List Nat :=
  [6, 8, 15, 33, 66, 134, 267, 537, 1074, 2150, 4299, 8601, 17202, 34406, 68811, 137625,
    275250, 550502, 1101003, 2202009, 4404019]

/-- The keys 0, ..., 6 inserted one by one into an empty set with `N = 11`:
seven keys in 11 buckets, the most that fit before the table grows. -/
def sevenSet : ADS_set Nat :=
  ⟨[[0], [1], [2], [3], [4], [5], [6], [], [], [], [], []], 11, 7⟩

/-- A well-formed table of 11 buckets that holds the 17 keys 0, ..., 16. -/
def crowdedSet : ADS_set Nat :=
  ⟨[[11, 0], [12, 1], [13, 2], [14, 3], [15, 4], [16, 5], [6], [7], [8], [9], [10], []],
    11, 17⟩

set_option linter.unusedSectionVars false

/-! ## Lists of chains -/

theorem getD_set_self {α : Type} (l : List (List α)) (i : Nat) (c : List α)
    (hi : i < l.length) : (l.set i c).getD i [] = c := by
  simp [List.getD_eq_getElem?_getD, List.getElem?_set, hi]

theorem getD_set_other {α : Type} (l : List (List α)) (i j : Nat) (c : List α)
    (hij : i ≠ j) : (l.set i c).getD j [] = l.getD j [] := by
  simp [List.getD_eq_getElem?_getD, List.getElem?_set, hij]

theorem getD_take_lt {α : Type} (l : List (List α)) (n i : Nat) (hi : i < n) :
    (l.take n).getD i [] = l.getD i [] := by
  simp [List.getD_eq_getElem?_getD, List.getElem?_take, hi]

theorem flatten_set_perm {α : Type} (l : List (List α)) (i : Nat) (c : List α)
    (hi : i < l.length) :
    ((l.set i c).flatten ++ l.getD i []).Perm (c ++ l.flatten) := by
  induction l generalizing i with
  | nil => simp at hi
  | cons a t ih =>
    cases i with
    | zero =>
      simp only [List.set_cons_zero, List.flatten_cons, List.getD_cons_zero]
      rw [List.append_assoc]
      exact List.Perm.append_left c List.perm_append_comm
    | succ j =>
      have hj : j < t.length := by simpa using hi
      simp only [List.set_cons_succ, List.flatten_cons, List.getD_cons_succ]
      rw [List.append_assoc]
      refine (List.Perm.append_left a (ih j hj)).trans ?_
      rw [← List.append_assoc, ← List.append_assoc]
      exact List.Perm.append_right _ List.perm_append_comm

theorem mem_flatten_take_iff {α : Type} (l : List (List α)) (n : Nat) (hn : n ≤ l.length)
    (x : α) : x ∈ (l.take n).flatten ↔ ∃ i, i < n ∧ x ∈ l.getD i [] := by
  constructor
  · intro hx
    obtain ⟨ch, hch, hxc⟩ := List.mem_flatten.mp hx
    obtain ⟨i, hi, rfl⟩ := List.getElem_of_mem hch
    have hin : i < n := by
      have := hi
      simp only [List.length_take] at this
      omega
    refine ⟨i, hin, ?_⟩
    rw [List.getElem_take] at hxc
    rw [List.getD_eq_getElem _ _ (by omega)]
    exact hxc
  · rintro ⟨i, hi, hx⟩
    refine List.mem_flatten.mpr ⟨l.getD i [], ?_, hx⟩
    have hil : i < l.length := by omega
    rw [List.getD_eq_getElem _ _ hil]
    have : i < (l.take n).length := by simp [List.length_take]; omega
    have h2 := List.getElem_mem this
    rwa [List.getElem_take] at h2

theorem range_map_getD {α : Type} (l : List (List α)) (n : Nat) (hn : n ≤ l.length) :
    (List.range n).map (fun i => l.getD i []) = l.take n := by
  induction n with
  | zero => simp
  | succ m ih =>
    have hm : m < l.length := by omega
    rw [List.range_succ, List.map_append, ih (by omega), List.take_succ]
    simp [List.getD_eq_getElem?_getD, List.getElem?_eq_getElem hm]

theorem foldl_range_chains {α β : Type} (f : Nat → List α) (g : β → α → β) (n : Nat) (b : β) :
    (List.range n).foldl (fun acc i => (f i).foldl g acc) b
      = ((List.range n).map f).flatten.foldl g b := by
  induction n with
  | zero => simp
  | succ m ih =>
    rw [List.range_succ, List.foldl_append, ih, List.map_append, List.flatten_append,
      List.foldl_append]
    simp

/-! ## The chain loops -/

theorem locateFrom_eq_nil_iff (key : Key) (l : List Key) :
    locateFrom key l = [] ↔ key ∉ l := by
  induction l with
  | nil => simp [locateFrom]
  | cons k rest ih =>
    by_cases hk : k = key
    · simp [locateFrom, hk]
    · have hk2 : ¬ key = k := fun h => hk h.symm
      simp [locateFrom, hk, hk2, ih]

theorem locateFrom_head (key : Key) (l : List Key) (hmem : key ∈ l) :
    (locateFrom key l).head? = some key := by
  induction l with
  | nil => simp at hmem
  | cons k rest ih =>
    by_cases hk : k = key
    · simp [locateFrom, hk]
    · have hk2 : ¬ key = k := fun h => hk h.symm
      simp only [locateFrom, hk, if_false]
      exact ih (by simpa [hk2] using hmem)

theorem locateFrom_length_le (key : Key) (l : List Key) :
    (locateFrom key l).length ≤ l.length := by
  induction l with
  | nil => simp [locateFrom]
  | cons k rest ih =>
    by_cases hk : k = key
    · simp [locateFrom, hk]
    · simp only [locateFrom, hk, if_false, List.length_cons]
      omega

theorem eraseWalk_locateFrom (key : Key) (l : List Key) (hmem : key ∈ l) :
    eraseWalk (locateFrom key l) l = some (l.erase key) := by
  induction l with
  | nil => simp at hmem
  | cons k rest ih =>
    by_cases hk : k = key
    · subst hk
      simp [locateFrom, eraseWalk]
    · have hk2 : ¬ key = k := fun h => hk h.symm
      have hne : k :: rest ≠ locateFrom key rest := by
        intro heq
        have h1 := locateFrom_length_le key rest
        rw [← heq] at h1
        simp at h1
      have hrest : key ∈ rest := by simpa [hk2] using hmem
      have hbeq : ¬ (k == key) = true := by simpa using hk
      simp only [locateFrom, hk, if_false, eraseWalk, hne, ih hrest, Option.map_some',
        List.erase_cons_tail hbeq]

/-! ## Keys and well-formed states -/

theorem WF.length_eq {c : Params Key} {s : ADS_set Key} (w : WF c s) :
    s.table.length = s.table_size + 1 := w.1

theorem WF.pos {c : Params Key} {s : ADS_set Key} (w : WF c s) : 0 < s.table_size := w.2.1

theorem WF.min {c : Params Key} {s : ADS_set Key} (w : WF c s) : c.N ≤ s.table_size :=
  w.2.2.1

theorem WF.sentinel {c : Params Key} {s : ADS_set Key} (w : WF c s) :
    s.table.getD s.table_size [] = [] := w.2.2.2.1

theorem WF.routed {c : Params Key} {s : ADS_set Key} (w : WF c s) :
    ∀ idx < s.table_size, ∀ k ∈ s.table.getD idx [], c.hasher k % s.table_size = idx :=
  w.2.2.2.2.1

theorem WF.nodup {c : Params Key} {s : ADS_set Key} (w : WF c s) : s.keys.Nodup :=
  w.2.2.2.2.2.1

theorem WF.size_eq {c : Params Key} {s : ADS_set Key} (w : WF c s) :
    s.current_size = s.keys.length := w.2.2.2.2.2.2

theorem h_lt {c : Params Key} {s : ADS_set Key} (hpos : 0 < s.table_size) (k : Key) :
    s.h c k < s.table_size := Nat.mod_lt _ hpos

theorem mem_keys_iff {c : Params Key} {s : ADS_set Key} (w : WF c s) (k : Key) :
    k ∈ s.keys ↔ k ∈ s.table.getD (s.h c k) [] := by
  unfold ADS_set.keys
  rw [mem_flatten_take_iff _ _ (by rw [w.length_eq]; omega)]
  constructor
  · rintro ⟨i, hi, hk⟩
    have := w.routed i hi k hk
    unfold ADS_set.h
    rw [this]
    exact hk
  · intro hk
    exact ⟨s.h c k, h_lt w.pos k, hk⟩

theorem locate_ne_nil_iff {c : Params Key} {s : ADS_set Key} (w : WF c s) (k : Key) :
    s.locate c k ≠ [] ↔ k ∈ s.keys := by
  unfold ADS_set.locate
  rw [mem_keys_iff w, Ne, locateFrom_eq_nil_iff, not_not]

theorem count_eq_one_iff {c : Params Key} {s : ADS_set Key} (w : WF c s) (k : Key) :
    s.count c k = 1 ↔ k ∈ s.keys := by
  unfold ADS_set.count
  rw [← locate_ne_nil_iff w]
  split <;> simp_all

theorem count_eq_zero_iff {c : Params Key} {s : ADS_set Key} (w : WF c s) (k : Key) :
    s.count c k = 0 ↔ k ∉ s.keys := by
  unfold ADS_set.count
  rw [← locate_ne_nil_iff w]
  split <;> simp_all

theorem count_le_one (c : Params Key) (s : ADS_set Key) (k : Key) : s.count c k ≤ 1 := by
  unfold ADS_set.count
  split <;> simp

/-! ## `add` -/

theorem add_fst (c : Params Key) (s : ADS_set Key) (v : Key) :
    (s.add c v).1 = v :: s.table.getD (s.h c v) [] := by
  unfold ADS_set.add
  by_cases hnil : s.table.getD (s.h c v) [] = [] <;> simp only [hnil, if_true, if_false]

theorem add_snd (c : Params Key) (s : ADS_set Key) (v : Key) :
    (s.add c v).2 = ⟨s.table.set (s.h c v) (v :: s.table.getD (s.h c v) []),
      s.table_size, s.current_size + 1⟩ := by
  unfold ADS_set.add
  by_cases hnil : s.table.getD (s.h c v) [] = [] <;> simp only [hnil, if_true, if_false]

theorem add_table_size (c : Params Key) (s : ADS_set Key) (v : Key) :
    (s.add c v).2.table_size = s.table_size := by
  rw [add_snd]

theorem add_keys_perm {c : Params Key} {s : ADS_set Key} (hlen : s.table.length = s.table_size + 1)
    (hpos : 0 < s.table_size) (v : Key) :
    (s.add c v).2.keys.Perm (v :: s.keys) := by
  rw [add_snd]
  unfold ADS_set.keys
  simp only
  have hidx : s.h c v < s.table_size := h_lt hpos v
  rw [List.set_take]
  have hlt : s.h c v < (s.table.take s.table_size).length := by
    simp [List.length_take]; omega
  have hp := flatten_set_perm (s.table.take s.table_size) (s.h c v)
    (v :: s.table.getD (s.h c v) []) hlt
  rw [getD_take_lt _ _ _ hidx] at hp
  have hp2 : ((v :: s.table.getD (s.h c v) []) ++ (s.table.take s.table_size).flatten).Perm
      ((v :: (s.table.take s.table_size).flatten) ++ s.table.getD (s.h c v) []) := by
    simp only [List.cons_append]
    exact List.Perm.cons v List.perm_append_comm
  exact (List.perm_append_right_iff _).mp (hp.trans hp2)

theorem add_wf {c : Params Key} {s : ADS_set Key} (w : WF c s) (v : Key) (hv : v ∉ s.keys) :
    WF c (s.add c v).2 := by
  have hperm := add_keys_perm (c := c) w.length_eq w.pos v
  have hidx : s.h c v < s.table_size := h_lt w.pos v
  rw [add_snd] at hperm ⊢
  refine ⟨?_, w.pos, w.min, ?_, ?_, ?_, ?_⟩
  · simpa using w.length_eq
  · simp only
    rw [getD_set_other _ _ _ _ (by omega)]
    exact w.sentinel
  · intro idx hidx2 k hk
    simp only at hk ⊢
    by_cases hi : s.h c v = idx
    · subst hi
      rw [getD_set_self _ _ _ (by rw [w.length_eq]; omega)] at hk
      rcases List.mem_cons.mp hk with rfl | hk2
      · rfl
      · exact w.routed _ hidx2 k hk2
    · rw [getD_set_other _ _ _ _ hi] at hk
      exact w.routed _ hidx2 k hk
  · exact (hperm.nodup_iff).mpr (List.nodup_cons.mpr ⟨hv, w.nodup⟩)
  · simp only
    rw [hperm.length_eq, List.length_cons, w.size_eq]

theorem add_head {c : Params Key} {s : ADS_set Key} (w : WF c s) (v : Key) :
    (s.add c v).2.table.getD ((s.add c v).2.h c v) [] = v :: s.table.getD (s.h c v) [] := by
  have hidx : s.h c v < s.table_size := h_lt w.pos v
  rw [add_snd]
  unfold ADS_set.h
  simp only
  exact getD_set_self _ _ _ (by rw [w.length_eq]; unfold ADS_set.h at hidx; omega)

/-! ## `rehash`, `reserve` and the constructors -/

theorem foldl_add_spec {c : Params Key} (l : List Key) :
    ∀ s : ADS_set Key, WF c s → l.Nodup → (∀ k ∈ l, k ∉ s.keys) →
      WF c (l.foldl (fun a k => (a.add c k).2) s) ∧
      (l.foldl (fun a k => (a.add c k).2) s).keys.Perm (l ++ s.keys) ∧
      (l.foldl (fun a k => (a.add c k).2) s).table_size = s.table_size := by
  induction l with
  | nil => intro s w _ _; exact ⟨w, List.Perm.refl _, rfl⟩
  | cons k t ih =>
    intro s w hnd hdisj
    have hk : k ∉ s.keys := hdisj k (List.mem_cons_self k t)
    have w1 := add_wf w k hk
    have hp1 := add_keys_perm (c := c) w.length_eq w.pos k
    obtain ⟨hkt, hndt⟩ := List.nodup_cons.mp hnd
    have hdisj1 : ∀ x ∈ t, x ∉ (s.add c k).2.keys := by
      intro x hx hmem
      rcases List.mem_cons.mp (hp1.subset hmem) with rfl | h2
      · exact hkt hx
      · exact hdisj x (List.mem_cons_of_mem k hx) h2
    obtain ⟨w2, hp2, hts⟩ := ih (s.add c k).2 w1 hndt hdisj1
    refine ⟨w2, ?_, ?_⟩
    · refine hp2.trans ?_
      refine (List.Perm.append_left t hp1).trans ?_
      exact List.perm_middle
    · rw [List.foldl_cons, hts, add_table_size]

theorem addAll_eq (c : Params Key) (old_table : List (List Key)) (old_table_size : Nat)
    (hle : old_table_size ≤ old_table.length) (s : ADS_set Key) :
    ADS_set.addAll c old_table old_table_size s
      = (old_table.take old_table_size).flatten.foldl (fun a k => (a.add c k).2) s := by
  unfold ADS_set.addAll
  rw [foldl_range_chains (fun idx => old_table.getD idx []), range_map_getD _ _ hle]

theorem fresh_keys (m : Nat) :
    (⟨List.replicate (m + 1) [], m, 0⟩ : ADS_set Key).keys = [] := by
  unfold ADS_set.keys
  simp [List.take_replicate]

theorem fresh_wf (c : Params Key) (m : Nat) (hpos : 0 < m) (hmin : c.N ≤ m) :
    WF c (⟨List.replicate (m + 1) [], m, 0⟩ : ADS_set Key) := by
  refine ⟨by simp, hpos, hmin, ?_, ?_, ?_, ?_⟩
  · simp [List.getD_eq_getElem?_getD]
  · intro idx hidx k hk
    simp only at hk hidx
    rw [List.getD_eq_getElem _ _ (by simp; omega)] at hk
    simp at hk
  · rw [fresh_keys]; exact List.nodup_nil
  · rw [fresh_keys]; rfl

theorem rehash_table_size_of_len (c : Params Key) (s : ADS_set Key) (n : Nat)
    (hlen : s.table_size ≤ s.table.length)
    (hpos : 0 < max c.N (max n (c.max_lf.div s.current_size)))
    (hnd : s.keys.Nodup) :
    WF c (s.rehash c n) ∧ (s.rehash c n).keys.Perm s.keys ∧
      (s.rehash c n).table_size = max c.N (max n (c.max_lf.div s.current_size)) := by
  unfold ADS_set.rehash
  simp only
  rw [addAll_eq c _ _ hlen]
  have wf0 := fresh_wf c (max c.N (max n (c.max_lf.div s.current_size))) hpos (le_max_left _ _)
  obtain ⟨w, hp, hts⟩ := foldl_add_spec (c := c) (s.table.take s.table_size).flatten _ wf0 hnd
    (by intro k _; rw [fresh_keys]; simp)
  refine ⟨w, ?_, hts⟩
  rw [fresh_keys, List.append_nil] at hp
  exact hp

theorem rehash_spec {c : Params Key} {s : ADS_set Key} (w : WF c s) (n : Nat)
    (hpos : 0 < max c.N (max n (c.max_lf.div s.current_size))) :
    WF c (s.rehash c n) ∧ (s.rehash c n).keys.Perm s.keys ∧
      (s.rehash c n).table_size = max c.N (max n (c.max_lf.div s.current_size)) :=
  rehash_table_size_of_len c s n (by rw [w.length_eq]; omega) hpos w.nodup

theorem reserveLoop_ge (lf : MaxLf) (n : Nat) (fuel : Nat) :
    ∀ start : Nat, start ≤ reserveLoop lf n fuel start := by
  induction fuel with
  | zero => intro start; simp [reserveLoop]
  | succ f ih =>
    intro start
    unfold reserveLoop
    split
    · exact le_refl _
    · have := ih (2 * start + 1)
      omega

theorem reserveLoop_exit (lf : MaxLf) (n : Nat) (fuel : Nat) :
    ∀ start : Nat, 2 * n ≤ fuel + start → lf.ge (reserveLoop lf n fuel start) n = true := by
  induction fuel with
  | zero =>
    intro start hle
    simp only [reserveLoop]
    exact lf.ge_of_double start n (by omega)
  | succ f ih =>
    intro start hle
    unfold reserveLoop
    split
    · assumption
    · exact ih (2 * start + 1) (by omega)

theorem reserve_spec {c : Params Key} {s : ADS_set Key} (w : WF c s) (n : Nat) :
    WF c (s.reserve c n) ∧ (s.reserve c n).keys.Perm s.keys ∧
      s.table_size ≤ (s.reserve c n).table_size := by
  unfold ADS_set.reserve
  split
  · exact ⟨w, List.Perm.refl _, le_refl _⟩
  · have hge := reserveLoop_ge c.max_lf n (2 * n) s.table_size
    have hpos : 0 < max c.N (max (reserveLoop c.max_lf n (2 * n) s.table_size)
        (c.max_lf.div s.current_size)) := by
      have := w.pos
      have h1 : reserveLoop c.max_lf n (2 * n) s.table_size
          ≤ max c.N (max (reserveLoop c.max_lf n (2 * n) s.table_size)
            (c.max_lf.div s.current_size)) :=
        le_trans (le_max_left _ _) (le_max_right _ _)
      omega
    obtain ⟨w2, hp, hts⟩ := rehash_spec w _ hpos
    refine ⟨w2, hp, ?_⟩
    rw [hts]
    exact le_trans hge (le_trans (le_max_left _ _) (le_max_right _ _))

theorem new_eq (c : Params Key) :
    ADS_set.new c = ⟨List.replicate (c.N + 1) [], c.N, 0⟩ := by
  unfold ADS_set.new ADS_set.rehash ADS_set.addAll ADS_set.init
  simp [c.max_lf.div_zero]

theorem new_wf (c : Params Key) (hN : 0 < c.N) : WF c (ADS_set.new c) := by
  rw [new_eq]
  exact fresh_wf c c.N hN (le_refl _)

theorem new_keys (c : Params Key) : (ADS_set.new c).keys = [] := by
  rw [new_eq]
  exact fresh_keys c.N

theorem copy_spec {c : Params Key} {other : ADS_set Key} (w : WF c other) :
    WF c (ADS_set.copy c other) ∧ (ADS_set.copy c other).keys.Perm other.keys ∧
      (ADS_set.copy c other).table_size = other.table_size := by
  have hfresh : (ADS_set.init : ADS_set Key).rehash c other.table_size
      = ⟨List.replicate (other.table_size + 1) [], other.table_size, 0⟩ := by
    unfold ADS_set.rehash ADS_set.addAll ADS_set.init
    have := w.min
    simp [c.max_lf.div_zero, this]
  unfold ADS_set.copy
  rw [hfresh, addAll_eq c _ _ (by rw [w.length_eq]; omega)]
  have wf0 := fresh_wf c other.table_size w.pos w.min
  obtain ⟨w2, hp, hts⟩ := foldl_add_spec (c := c) (other.table.take other.table_size).flatten
    _ wf0 w.nodup (by intro k _; rw [fresh_keys]; simp)
  refine ⟨w2, ?_, hts⟩
  rw [fresh_keys, List.append_nil] at hp
  exact hp

/-! ## Iterators made by `find`, `insert` and `end` -/

theorem new_of_ne_nil (e : List Key) (line : List (List Key)) (end_ idx : Nat) (he : e ≠ []) :
    Iterator.new e line end_ idx = ⟨e, line, end_, idx⟩ := by
  unfold Iterator.new
  rw [if_neg he]

theorem end_eq {c : Params Key} {s : ADS_set Key} (w : WF c s) :
    s.end_ = ⟨[], s.table, s.table_size, s.table_size⟩ := by
  unfold ADS_set.end_ Iterator.new Iterator.skip
  rw [w.sentinel]
  simp [Iterator.skipLoop]

theorem locate_head {c : Params Key} {s : ADS_set Key} (k : Key) (hk : s.locate c k ≠ []) :
    (s.locate c k).head? = some k := by
  unfold ADS_set.locate at hk ⊢
  exact locateFrom_head k _ (by
    by_contra hmem
    exact hk ((locateFrom_eq_nil_iff k _).mpr hmem))

theorem count_eq_one_iff_locate (c : Params Key) (s : ADS_set Key) (k : Key) :
    s.count c k = 1 ↔ s.locate c k ≠ [] := by
  unfold ADS_set.count
  split <;> simp_all

theorem count_eq_zero_iff_locate (c : Params Key) (s : ADS_set Key) (k : Key) :
    s.count c k = 0 ↔ s.locate c k = [] := by
  unfold ADS_set.count
  split <;> simp_all

/-! ## `insert` -/

theorem insert_of_mem (c : Params Key) (s : ADS_set Key) (k : Key) (hk : s.locate c k ≠ []) :
    s.insert c k = ((⟨s.locate c k, s.table, s.table_size, s.h c k⟩, false), s) := by
  unfold ADS_set.insert
  rw [if_pos hk, new_of_ne_nil _ _ _ _ hk]

theorem insert_of_not_mem (c : Params Key) (s : ADS_set Key) (k : Key)
    (hk : s.locate c k = []) :
    s.insert c k =
      ((⟨((s.reserve c (s.current_size + 1)).add c k).1,
          ((s.reserve c (s.current_size + 1)).add c k).2.table,
          ((s.reserve c (s.current_size + 1)).add c k).2.table_size,
          ((s.reserve c (s.current_size + 1)).add c k).2.h c k⟩, true),
        ((s.reserve c (s.current_size + 1)).add c k).2) := by
  unfold ADS_set.insert
  rw [if_neg (by simpa using hk)]
  simp only
  rw [new_of_ne_nil]
  rw [add_fst]
  simp

theorem insert_spec {c : Params Key} {s : ADS_set Key} (w : WF c s) (k : Key) :
    WF c (s.insert c k).2 ∧ ∀ x, x ∈ (s.insert c k).2.keys ↔ x = k ∨ x ∈ s.keys := by
  by_cases hk : s.locate c k = []
  · rw [insert_of_not_mem c s k hk]
    simp only
    obtain ⟨w1, hp1, _⟩ := reserve_spec w (s.current_size + 1)
    have hnot : k ∉ s.keys := fun hmem => (locate_ne_nil_iff w k).mpr hmem hk
    have hnot1 : k ∉ (s.reserve c (s.current_size + 1)).keys := fun hmem => hnot (hp1.subset hmem)
    refine ⟨add_wf w1 k hnot1, ?_⟩
    intro x
    have hp2 := add_keys_perm (c := c) w1.length_eq w1.pos k
    rw [hp2.mem_iff, List.mem_cons, hp1.mem_iff]
  · rw [insert_of_mem c s k hk]
    refine ⟨w, ?_⟩
    intro x
    have hmem : k ∈ s.keys := (locate_ne_nil_iff w k).mp hk
    constructor
    · intro hx; exact Or.inr hx
    · rintro (rfl | hx)
      · exact hmem
      · exact hx

theorem foldl_insert_spec {c : Params Key} (l : List Key) :
    ∀ s : ADS_set Key, WF c s →
      WF c (l.foldl (fun a k => (a.insert c k).2) s) ∧
      ∀ x, x ∈ (l.foldl (fun a k => (a.insert c k).2) s).keys ↔ x ∈ l ∨ x ∈ s.keys := by
  induction l with
  | nil => intro s w; exact ⟨w, by simp⟩
  | cons k t ih =>
    intro s w
    obtain ⟨w1, h1⟩ := insert_spec w k
    obtain ⟨w2, h2⟩ := ih _ w1
    refine ⟨w2, ?_⟩
    intro x
    rw [List.foldl_cons, h2, h1, List.mem_cons]
    tauto

theorem insert_snd (c : Params Key) (s : ADS_set Key) (k : Key) :
    (s.insert c k).2
      = if s.count c k = 0 then ((s.reserve c (s.current_size + 1)).add c k).2 else s := by
  by_cases hloc : s.locate c k = []
  · rw [insert_of_not_mem c s k hloc, if_pos ((count_eq_zero_iff_locate c s k).mpr hloc)]
  · rw [insert_of_mem c s k hloc,
      if_neg (fun h0 => hloc ((count_eq_zero_iff_locate c s k).mp h0))]

theorem insertRange_eq_foldl (c : Params Key) (s : ADS_set Key) (keys : List Key) :
    s.insertRange c keys = keys.foldl (fun acc k => (acc.insert c k).2) s := by
  unfold ADS_set.insertRange
  congr 1
  funext acc k
  exact (insert_snd c acc k).symm

theorem find_of_mem {c : Params Key} {s : ADS_set Key} (w : WF c s) (k : Key)
    (hk : k ∈ s.keys) :
    (s.find c k).eq s.end_ = false ∧ (s.find c k).deref = some k := by
  have hloc : s.locate c k ≠ [] := (locate_ne_nil_iff w k).mpr hk
  unfold ADS_set.find
  rw [if_pos hloc, new_of_ne_nil _ _ _ _ hloc, end_eq w]
  refine ⟨?_, ?_⟩
  · simpa [Iterator.eq] using hloc
  · exact locate_head k hloc

theorem find_of_not_mem {c : Params Key} {s : ADS_set Key} (w : WF c s) (k : Key)
    (hk : k ∉ s.keys) :
    s.find c k = s.end_ ∧ (s.find c k).eq s.end_ = true := by
  have hloc : ¬ s.locate c k ≠ [] := fun h => hk ((locate_ne_nil_iff w k).mp h)
  unfold ADS_set.find
  rw [if_neg hloc]
  exact ⟨rfl, by simp [Iterator.eq]⟩

/-! ## `erase` -/

theorem erase_of_locate_nil (c : Params Key) (s : ADS_set Key) (k : Key)
    (hloc : s.locate c k = []) : s.erase c k = some (0, s) := by
  unfold ADS_set.erase
  rw [if_neg (by simpa using hloc)]

theorem erase_of_mem {c : Params Key} {s : ADS_set Key} (w : WF c s) (k : Key)
    (hk : k ∈ s.keys) :
    s.erase c k = some (1, ⟨s.table.set (s.h c k) ((s.table.getD (s.h c k) []).erase k),
      s.table_size, s.current_size - 1⟩) := by
  have hloc : s.locate c k ≠ [] := (locate_ne_nil_iff w k).mpr hk
  have hmem : k ∈ s.table.getD (s.h c k) [] := (mem_keys_iff w k).mp hk
  unfold ADS_set.erase
  rw [if_pos hloc]
  simp only
  unfold ADS_set.locate
  rw [eraseWalk_locateFrom k _ hmem]
  rfl

theorem erase_keys_perm {c : Params Key} {s : ADS_set Key} (w : WF c s) (k : Key)
    (hk : k ∈ s.keys) :
    (k :: (⟨s.table.set (s.h c k) ((s.table.getD (s.h c k) []).erase k),
      s.table_size, s.current_size - 1⟩ : ADS_set Key).keys).Perm s.keys := by
  have hmem : k ∈ s.table.getD (s.h c k) [] := (mem_keys_iff w k).mp hk
  have hidx : s.h c k < s.table_size := h_lt w.pos k
  unfold ADS_set.keys
  simp only
  rw [List.set_take]
  have hlt : s.h c k < (s.table.take s.table_size).length := by
    simp [List.length_take]; rw [w.length_eq]; omega
  have hp := flatten_set_perm (s.table.take s.table_size) (s.h c k)
    ((s.table.getD (s.h c k) []).erase k) hlt
  rw [getD_take_lt _ _ _ hidx] at hp
  have hc := List.perm_cons_erase hmem
  -- abbreviations
  generalize ((s.table.take s.table_size).set (s.h c k)
    ((s.table.getD (s.h c k) []).erase k)).flatten = fl' at hp ⊢
  generalize (s.table.take s.table_size).flatten = fl at hp ⊢
  generalize (s.table.getD (s.h c k) []).erase k = ce at hp hc ⊢
  generalize s.table.getD (s.h c k) [] = ch at hp hc
  have h1 : ((k :: fl') ++ ce).Perm (fl' ++ ch) := by
    refine List.Perm.trans ?_ (List.Perm.append_left fl' hc.symm)
    simp only [List.cons_append]
    exact List.perm_middle.symm
  have h2 : ((k :: fl') ++ ce).Perm (fl ++ ce) := h1.trans (hp.trans List.perm_append_comm)
  exact (List.perm_append_right_iff ce).mp h2

theorem erase_spec {c : Params Key} {s : ADS_set Key} (w : WF c s) (k : Key)
    (hk : k ∈ s.keys) :
    ∃ s2 : ADS_set Key, s.erase c k = some (1, s2) ∧ WF c s2 ∧ (k :: s2.keys).Perm s.keys ∧
      s2.table_size = s.table_size ∧ s2.current_size + 1 = s.current_size := by
  refine ⟨_, erase_of_mem w k hk, ?_⟩
  have hp := erase_keys_perm w k hk
  have hidx : s.h c k < s.table_size := h_lt w.pos k
  have hnd : (k :: (⟨s.table.set (s.h c k) ((s.table.getD (s.h c k) []).erase k),
      s.table_size, s.current_size - 1⟩ : ADS_set Key).keys).Nodup := hp.nodup_iff.mpr w.nodup
  have hlen := hp.length_eq
  rw [List.length_cons, ← w.size_eq] at hlen
  refine ⟨⟨?_, w.pos, w.min, ?_, ?_, ?_, ?_⟩, hp, rfl, ?_⟩
  · simpa using w.length_eq
  · simp only
    rw [getD_set_other _ _ _ _ (by omega)]
    exact w.sentinel
  · intro idx hidx2 x hx
    simp only at hx ⊢
    by_cases hi : s.h c k = idx
    · subst hi
      rw [getD_set_self _ _ _ (by rw [w.length_eq]; omega)] at hx
      exact w.routed _ hidx2 x (List.mem_of_mem_erase hx)
    · rw [getD_set_other _ _ _ _ hi] at hx
      exact w.routed _ hidx2 x hx
  · exact (List.nodup_cons.mp hnd).2
  · simp only
    omega
  · simp only
    omega

/-! ## Insertion of a sequence of keys -/

theorem insertEach_spec {c : Params Key} (hN : 0 < c.N) (l : List Key) :
    WF c ((ADS_set.new c).insertEach c l) ∧
      ∀ x, x ∈ ((ADS_set.new c).insertEach c l).keys ↔ x ∈ l := by
  obtain ⟨w, hmem⟩ := foldl_insert_spec (c := c) l (ADS_set.new c) (new_wf c hN)
  refine ⟨w, ?_⟩
  intro x
  unfold ADS_set.insertEach
  rw [hmem, new_keys]
  simp

/-- C1: after the keys of any finite sequence have been inserted one by one
into a freshly constructed set, `size()` is the number of distinct keys of the
sequence. -/
theorem insertEach_size (c : Params Key) (hN : 0 < c.N) (l : List Key) :
    ((ADS_set.new c).insertEach c l).size = l.toFinset.card := by
  obtain ⟨w, hmem⟩ := insertEach_spec hN l
  unfold ADS_set.size
  rw [w.size_eq, ← List.toFinset_card_of_nodup w.nodup]
  congr 1
  ext x
  simp [hmem]

theorem insertEach_size_witness :
    0 < natParams.N ∧ ((ADS_set.new natParams).insertEach natParams [5, 12, 5, 7]).size = 3 :=
  ⟨by decide, (insertEach_size natParams (by decide) [5, 12, 5, 7]).trans (by decide)⟩

/-- C2: after the keys of any finite sequence have been inserted one by one
into a freshly constructed set, a key of the sequence has `count` 1 and `find`
gives an iterator different from `end()` whose dereference is the key; any
other key has `count` 0 and `find` gives `end()`. -/
theorem insertEach_lookup (c : Params Key) (hN : 0 < c.N) (l : List Key) (k : Key) :
    (k ∈ l →
      ((ADS_set.new c).insertEach c l).count c k = 1 ∧
      (((ADS_set.new c).insertEach c l).find c k).eq
        ((ADS_set.new c).insertEach c l).end_ = false ∧
      (((ADS_set.new c).insertEach c l).find c k).deref = some k) ∧
    (k ∉ l →
      ((ADS_set.new c).insertEach c l).count c k = 0 ∧
      ((ADS_set.new c).insertEach c l).find c k = ((ADS_set.new c).insertEach c l).end_ ∧
      (((ADS_set.new c).insertEach c l).find c k).eq
        ((ADS_set.new c).insertEach c l).end_ = true) := by
  obtain ⟨w, hmem⟩ := insertEach_spec hN l
  constructor
  · intro hk
    have hk2 := (hmem k).mpr hk
    exact ⟨(count_eq_one_iff w k).mpr hk2, find_of_mem w k hk2⟩
  · intro hk
    have hk2 : k ∉ ((ADS_set.new c).insertEach c l).keys := fun h => hk ((hmem k).mp h)
    exact ⟨(count_eq_zero_iff w k).mpr hk2, find_of_not_mem w k hk2⟩

theorem insertEach_lookup_witness :
    0 < natParams.N ∧
      ((ADS_set.new natParams).insertEach natParams (List.range 100)).count natParams 42 = 1 ∧
      ((ADS_set.new natParams).insertEach natParams (List.range 100)).count natParams 100 = 0 :=
  ⟨by decide,
    ((insertEach_lookup natParams (by decide) (List.range 100) 42).1 (by decide)).1,
    ((insertEach_lookup natParams (by decide) (List.range 100) 100).2 (by decide)).1⟩

/-! ## One call of `insert` -/

/-- C3: `insert(k)` of a key that the set contains returns the flag `false` and
a position whose dereference is `k`, and the state after the call is the state
before it (same `table_size`, same `current_size`, same chains). -/
theorem insert_present (c : Params Key) (s : ADS_set Key) (k : Key)
    (hk : s.count c k = 1) :
    (s.insert c k).1.2 = false ∧ (s.insert c k).1.1.deref = some k ∧
      (s.insert c k).2 = s := by
  have hloc : s.locate c k ≠ [] := (count_eq_one_iff_locate c s k).mp hk
  rw [insert_of_mem c s k hloc]
  exact ⟨rfl, locate_head k hloc, rfl⟩

theorem insert_present_witness :
    exampleSet.count natParams 12 = 1 ∧
      (exampleSet.insert natParams 12).1.2 = false ∧
      (exampleSet.insert natParams 12).1.1.deref = some 12 ∧
      (exampleSet.insert natParams 12).2 = exampleSet :=
  ⟨by decide, insert_present natParams exampleSet 12 (by decide)⟩

/-- C4: `insert(k)` of a key that a well-formed set does not contain returns the
flag `true` and a position whose dereference is `k`; afterwards `size()` is one
larger, `k` is the head of the chain of bucket `hash(k) mod table_size` (with
the `table_size` after the call), `count(k)` is 1, every key contained before is
still contained, and the state is well-formed again. -/
theorem insert_absent (c : Params Key) (s : ADS_set Key) (k : Key) (w : WF c s)
    (hk : s.count c k = 0) :
    (s.insert c k).1.2 = true ∧ (s.insert c k).1.1.deref = some k ∧
      (s.insert c k).2.size = s.size + 1 ∧
      ((s.insert c k).2.table.getD (c.hasher k % (s.insert c k).2.table_size) []).head?
        = some k ∧
      (s.insert c k).2.count c k = 1 ∧
      (∀ x, s.count c x = 1 → (s.insert c k).2.count c x = 1) ∧
      WF c (s.insert c k).2 := by
  have hloc : s.locate c k = [] := (count_eq_zero_iff_locate c s k).mp hk
  obtain ⟨w2, hmem⟩ := insert_spec w k
  have hcnt : ∀ x, s.count c x = 1 → (s.insert c k).2.count c x = 1 := by
    intro x hx
    exact (count_eq_one_iff w2 x).mpr ((hmem x).mpr (Or.inr ((count_eq_one_iff w x).mp hx)))
  have hcntk : (s.insert c k).2.count c k = 1 :=
    (count_eq_one_iff w2 k).mpr ((hmem k).mpr (Or.inl rfl))
  refine ⟨?_, ?_, ?_, ?_, hcntk, hcnt, w2⟩
  · rw [insert_of_not_mem c s k hloc]
  · rw [insert_of_not_mem c s k hloc]
    simp only [Iterator.deref]
    rw [add_fst]
    rfl
  · obtain ⟨w1, hp1, _⟩ := reserve_spec w (s.current_size + 1)
    have hnot : k ∉ s.keys := fun hm => (locate_ne_nil_iff w k).mpr hm hloc
    have hp2 := add_keys_perm (c := c) w1.length_eq w1.pos k
    unfold ADS_set.size
    rw [w2.size_eq, w.size_eq]
    rw [insert_of_not_mem c s k hloc]
    simp only
    rw [hp2.length_eq, List.length_cons, hp1.length_eq]
  · obtain ⟨w1, _, _⟩ := reserve_spec w (s.current_size + 1)
    rw [insert_of_not_mem c s k hloc]
    simp only
    have := add_head w1 k
    unfold ADS_set.h at this
    rw [this]
    rfl

theorem insert_absent_witness :
    WF natParams exampleSet ∧ exampleSet.count natParams 23 = 0 ∧
      (exampleSet.insert natParams 23).1.2 = true ∧
      (exampleSet.insert natParams 23).2.size = exampleSet.size + 1 :=
  ⟨by decide, by decide,
    (insert_absent natParams exampleSet 23 (by decide) (by decide)).1,
    (insert_absent natParams exampleSet 23 (by decide) (by decide)).2.2.1⟩

/-! ## `erase` -/

/-- C5: `erase(k)` of a key that a well-formed set contains returns 1;
afterwards `count(k)` is 0, `size()` is smaller by one, every other key has the
`count` it had before (none is lost, none is added), `table_size` is what it
was, and the state is well-formed again. -/
theorem erase_present (c : Params Key) (s : ADS_set Key) (k : Key) (w : WF c s)
    (hk : s.count c k = 1) :
    ∃ s2 : ADS_set Key, s.erase c k = some (1, s2) ∧
      s2.count c k = 0 ∧ s2.size + 1 = s.size ∧
      (∀ x, x ≠ k → s2.count c x = s.count c x) ∧
      s2.table_size = s.table_size ∧ WF c s2 := by
  obtain ⟨s2, he, w2, hp, hts, hcs⟩ := erase_spec w k ((count_eq_one_iff w k).mp hk)
  have hnd : (k :: s2.keys).Nodup := hp.nodup_iff.mpr w.nodup
  refine ⟨s2, he, ?_, hcs, ?_, hts, w2⟩
  · exact (count_eq_zero_iff w2 k).mpr (List.nodup_cons.mp hnd).1
  · intro x hx
    have hiff : x ∈ s2.keys ↔ x ∈ s.keys := by
      rw [← hp.mem_iff, List.mem_cons]
      constructor
      · intro h; exact Or.inr h
      · rintro (h | h)
        · exact absurd h hx
        · exact h
    by_cases hmem : x ∈ s.keys
    · rw [(count_eq_one_iff w x).mpr hmem, (count_eq_one_iff w2 x).mpr (hiff.mpr hmem)]
    · rw [(count_eq_zero_iff w x).mpr hmem,
        (count_eq_zero_iff w2 x).mpr (fun h => hmem (hiff.mp h))]

theorem erase_present_witness :
    WF natParams exampleSet ∧ exampleSet.count natParams 12 = 1 ∧
      exampleSet.erase natParams 12
        = some (1, ⟨[[], [], [], [], [], [5], [], [7], [], [], [], []], 11, 2⟩) ∧
      ∃ s2 : ADS_set Nat, exampleSet.erase natParams 12 = some (1, s2) ∧
        s2.count natParams 12 = 0 ∧ s2.size + 1 = exampleSet.size ∧
        (∀ x, x ≠ 12 → s2.count natParams x = exampleSet.count natParams x) ∧
        s2.table_size = exampleSet.table_size ∧ WF natParams s2 :=
  ⟨by decide, by decide, by decide,
    erase_present natParams exampleSet 12 (by decide) (by decide)⟩

/-- C6: `erase(k)` of a key that the set does not contain returns 0 and leaves
the state as it was (same `table_size`, same `current_size`, same chains). -/
theorem erase_absent (c : Params Key) (s : ADS_set Key) (k : Key)
    (hk : s.count c k = 0) :
    s.erase c k = some (0, s) := by
  exact erase_of_locate_nil c s k ((count_eq_zero_iff_locate c s k).mp hk)

theorem erase_absent_witness :
    exampleSet.count natParams 99 = 0 ∧ exampleSet.erase natParams 99 = some (0, exampleSet) :=
  ⟨by decide, erase_absent natParams exampleSet 99 (by decide)⟩

/-! ## Iteration -/

theorem skipLoop_of_ne_nil (line : List (List Key)) (end_ fuel : Nat) (e : List Key)
    (idx : Nat) (he : e ≠ []) : Iterator.skipLoop line end_ fuel e idx = (e, idx) := by
  cases fuel with
  | zero => rfl
  | succ f => simp [Iterator.skipLoop, he]

theorem new_eq_skip (e : List Key) (line : List (List Key)) (end_ idx : Nat) :
    Iterator.new e line end_ idx = Iterator.skip ⟨e, line, end_, idx⟩ := by
  unfold Iterator.new
  split
  · rfl
  · rename_i he
    unfold Iterator.skip
    simp only
    rw [skipLoop_of_ne_nil _ _ _ _ _ he]

theorem drop_flatten_step {α : Type} (l : List (List α)) (i : Nat) :
    (l.drop i).flatten = l.getD i [] ++ (l.drop (i + 1)).flatten := by
  by_cases hi : i < l.length
  · rw [List.drop_eq_getElem_cons hi, List.flatten_cons, List.getD_eq_getElem _ _ hi]
  · rw [List.drop_eq_nil_of_le (by omega), List.drop_eq_nil_of_le (by omega),
      List.getD_eq_default _ _ (by omega)]
    rfl

theorem getD_take_sentinel {c : Params Key} {s : ADS_set Key} (w : WF c s) (i : Nat)
    (hi : i ≤ s.table_size) :
    (s.table.take s.table_size).getD i [] = s.table.getD i [] := by
  rcases Nat.lt_or_ge i s.table_size with hlt | hge
  · exact getD_take_lt _ _ _ hlt
  · have : i = s.table_size := by omega
    subst this
    rw [w.sentinel, List.getD_eq_default]
    simp

/-- The loop of `skip` ends with a non-null `e` or at the sentinel, and skips
only empty buckets. -/
theorem skipLoop_spec {c : Params Key} {s : ADS_set Key} (w : WF c s) (fuel : Nat) :
    ∀ (e : List Key) (idx : Nat), idx ≤ s.table_size → s.table_size - idx ≤ fuel →
      (Iterator.skipLoop s.table s.table_size fuel e idx).2 ≤ s.table_size ∧
      ((Iterator.skipLoop s.table s.table_size fuel e idx).1 = [] →
        (Iterator.skipLoop s.table s.table_size fuel e idx).2 = s.table_size) ∧
      (Iterator.skipLoop s.table s.table_size fuel e idx).1 ++
          ((s.table.take s.table_size).drop
            ((Iterator.skipLoop s.table s.table_size fuel e idx).2 + 1)).flatten
        = e ++ ((s.table.take s.table_size).drop (idx + 1)).flatten := by
  induction fuel with
  | zero =>
    intro e idx hle hfuel
    have hidx : idx = s.table_size := by omega
    exact ⟨hle, fun _ => hidx, rfl⟩
  | succ f ih =>
    intro e idx hle hfuel
    unfold Iterator.skipLoop
    by_cases hcond : e = [] ∧ idx < s.table_size
    · rw [if_pos hcond]
      obtain ⟨h1, h2, h3⟩ := ih (s.table.getD (idx + 1) []) (idx + 1) (by omega) (by omega)
      refine ⟨h1, h2, ?_⟩
      rw [h3, hcond.1, List.nil_append, drop_flatten_step _ (idx + 1),
        getD_take_sentinel w (idx + 1) (by omega)]
    · rw [if_neg hcond]
      refine ⟨hle, ?_, rfl⟩
      intro he
      simp only at he
      by_contra hne
      exact hcond ⟨he, by simp only at hne; omega⟩

/-- What is still to be visited from a position: the rest of the current chain
and the chains of the buckets after it. -/
theorem skip_spec {c : Params Key} {s : ADS_set Key} (w : WF c s) (e : List Key) (idx : Nat)
    (hle : idx ≤ s.table_size) :
    ∃ (e2 : List Key) (idx2 : Nat),
      Iterator.skip ⟨e, s.table, s.table_size, idx⟩ = ⟨e2, s.table, s.table_size, idx2⟩ ∧
      idx2 ≤ s.table_size ∧ (e2 = [] → idx2 = s.table_size) ∧
      e2 ++ ((s.table.take s.table_size).drop (idx2 + 1)).flatten
        = e ++ ((s.table.take s.table_size).drop (idx + 1)).flatten := by
  obtain ⟨h1, h2, h3⟩ := skipLoop_spec w (s.table_size - idx) e idx hle (le_refl _)
  exact ⟨_, _, rfl, h1, h2, h3⟩

theorem collectFrom_spec {c : Params Key} {s : ADS_set Key} (w : WF c s) (fuel : Nat) :
    ∀ (e : List Key) (idx : Nat), idx ≤ s.table_size → (e = [] → idx = s.table_size) →
      collectFrom s.end_ fuel ⟨e, s.table, s.table_size, idx⟩
        = if (e ++ ((s.table.take s.table_size).drop (idx + 1)).flatten).length ≤ fuel
          then some (e ++ ((s.table.take s.table_size).drop (idx + 1)).flatten) else none := by
  have hdrop : ((s.table.take s.table_size).drop (s.table_size + 1)).flatten = [] := by
    rw [List.drop_eq_nil_of_le (by simp [List.length_take])]
    rfl
  induction fuel with
  | zero =>
    intro e idx hle hend
    unfold collectFrom
    rw [end_eq w]
    cases e with
    | nil =>
      have := hend rfl
      subst this
      simp [Iterator.eq, hdrop]
    | cons k rest => simp [Iterator.eq]
  | succ f ih =>
    intro e idx hle hend
    unfold collectFrom
    rw [end_eq w]
    cases e with
    | nil =>
      have := hend rfl
      subst this
      simp [Iterator.eq, hdrop]
    | cons k rest =>
      obtain ⟨e2, idx2, hskip, hle2, hend2, hrest⟩ := skip_spec w rest idx hle
      have hne : Iterator.eq (⟨k :: rest, s.table, s.table_size, idx⟩ : Iterator Key)
          ⟨[], s.table, s.table_size, s.table_size⟩ = false := by simp [Iterator.eq]
      rw [hne]
      simp only [Bool.false_eq_true, if_false, Iterator.deref, Iterator.next, List.head?_cons]
      rw [hskip, ← end_eq w, ih e2 idx2 hle2 hend2, hrest]
      simp only [List.cons_append, List.length_cons, Nat.add_le_add_iff_right]
      split <;> simp

theorem begin_spec {c : Params Key} {s : ADS_set Key} (w : WF c s) :
    ∃ (e : List Key) (idx : Nat),
      s.begin = ⟨e, s.table, s.table_size, idx⟩ ∧ idx ≤ s.table_size ∧
      (e = [] → idx = s.table_size) ∧
      e ++ ((s.table.take s.table_size).drop (idx + 1)).flatten = s.keys := by
  obtain ⟨e, idx, h1, h2, h3, h4⟩ := skip_spec w (s.table.getD 0 []) 0 (Nat.zero_le _)
  refine ⟨e, idx, ?_, h2, h3, ?_⟩
  · unfold ADS_set.begin
    rw [new_eq_skip, h1]
  · rw [h4, ← getD_take_sentinel w 0 (Nat.zero_le _), ← drop_flatten_step]
    rfl

theorem collect_spec {c : Params Key} {s : ADS_set Key} (w : WF c s) (rounds : Nat) :
    s.collect rounds = if s.size ≤ rounds then some s.keys else none := by
  obtain ⟨e, idx, hb, hle, hend, hkeys⟩ := begin_spec w
  unfold ADS_set.collect ADS_set.size
  rw [hb, collectFrom_spec w rounds e idx hle hend, hkeys, w.size_eq]

theorem begin_eq_end_iff {c : Params Key} {s : ADS_set Key} (w : WF c s) :
    s.begin.eq s.end_ = true ↔ s.empty = true := by
  obtain ⟨e, idx, hb, hle, hend, hkeys⟩ := begin_spec w
  have hdrop : ((s.table.take s.table_size).drop (s.table_size + 1)).flatten = [] := by
    rw [List.drop_eq_nil_of_le (by simp [List.length_take])]
    rfl
  rw [hb, end_eq w]
  unfold ADS_set.empty
  rw [w.size_eq, ← hkeys]
  simp only [Iterator.eq, decide_eq_true_eq, beq_iff_eq, List.length_eq_zero,
    List.append_eq_nil]
  constructor
  · intro he
    have := hend he
    subst this
    exact ⟨he, hdrop⟩
  · intro h
    exact h.1

theorem reachable_wf {c : Params Key} (hN : 0 < c.N) {s : ADS_set Key}
    (hr : InsertEraseReachable c s) : WF c s := by
  induction hr with
  | new => exact new_wf c hN
  | insert s k _ ih => exact (insert_spec ih k).1
  | insertRange s keys _ ih =>
    rw [insertRange_eq_foldl]
    exact (foldl_insert_spec keys s ih).1
  | erase s k r s2 _ he ih =>
    by_cases hk : k ∈ s.keys
    · obtain ⟨s3, he3, w3, _⟩ := erase_spec ih k hk
      rw [he3] at he
      cases he
      exact w3
    · have h0 := erase_of_locate_nil c s k
        (by by_contra hloc; exact hk ((locate_ne_nil_iff ih k).mp hloc))
      rw [h0] at he
      cases he
      exact ih

/-- C7: in every state that `insert` calls (of a key, a range or a list) and
`erase` calls reach from a default constructed set, the walk from `begin()`
with `operator++` reaches `end()` after exactly `size()` increments (it has
not ended when fewer rounds are allowed, it has ended when `size()` or more
are), the keys dereferenced on the way are pairwise distinct and are exactly
the keys with `count` 1, and `begin() == end()` holds exactly when the set is
empty. -/
theorem iterate_reachable (c : Params Key) (hN : 0 < c.N) (s : ADS_set Key)
    (hr : InsertEraseReachable c s) :
    ∃ l : List Key,
      (∀ rounds, s.collect rounds = if s.size ≤ rounds then some l else none) ∧
      l.length = s.size ∧ l.Nodup ∧ (∀ k, k ∈ l ↔ s.count c k = 1) ∧
      (s.begin.eq s.end_ = true ↔ s.empty = true) := by
  have w := reachable_wf hN hr
  refine ⟨s.keys, collect_spec w, w.size_eq.symm, w.nodup, ?_, begin_eq_end_iff w⟩
  intro k
  exact (count_eq_one_iff w k).symm

theorem exampleSet_reachable : InsertEraseReachable natParams exampleSet := by
  have h0 : InsertEraseReachable natParams (ADS_set.new natParams) :=
    InsertEraseReachable.new
  have h1 := InsertEraseReachable.insert _ 5 h0
  have h2 := InsertEraseReachable.insert _ 12 h1
  have h3 := InsertEraseReachable.insert _ 5 h2
  have h4 := InsertEraseReachable.insert _ 7 h3
  have heq : ((((((((ADS_set.new natParams).insert natParams 5).2).insert natParams 12).2).insert
      natParams 5).2).insert natParams 7).2 = exampleSet := by decide
  rw [heq] at h4
  exact h4

theorem iterate_reachable_witness :
    0 < natParams.N ∧ InsertEraseReachable natParams exampleSet ∧
      exampleSet.collect 3 = some [12, 5, 7] ∧ exampleSet.collect 2 = none ∧
      ∃ l : List Nat,
        (∀ rounds, exampleSet.collect rounds
          = if exampleSet.size ≤ rounds then some l else none) ∧
        l.length = exampleSet.size ∧ l.Nodup ∧
        (∀ k, k ∈ l ↔ exampleSet.count natParams k = 1) ∧
        (exampleSet.begin.eq exampleSet.end_ = true ↔ exampleSet.empty = true) :=
  ⟨by decide, exampleSet_reachable, by decide, by decide,
    iterate_reachable natParams (by decide) exampleSet exampleSet_reachable⟩

/-! ## Capacity changes, copies and equality -/

theorem count_eq_of_mem_iff {c : Params Key} {s t : ADS_set Key} (ws : WF c s) (wt : WF c t)
    (hmem : ∀ k, k ∈ s.keys ↔ k ∈ t.keys) (k : Key) : s.count c k = t.count c k := by
  by_cases hk : k ∈ t.keys
  · rw [(count_eq_one_iff wt k).mpr hk, (count_eq_one_iff ws k).mpr ((hmem k).mpr hk)]
  · rw [(count_eq_zero_iff wt k).mpr hk,
      (count_eq_zero_iff ws k).mpr (fun h => hk ((hmem k).mp h))]

theorem size_eq_of_perm {c : Params Key} {s t : ADS_set Key} (ws : WF c s) (wt : WF c t)
    (hp : s.keys.Perm t.keys) : s.size = t.size := by
  unfold ADS_set.size
  rw [ws.size_eq, wt.size_eq, hp.length_eq]

/-- C8: `rehash(n)` and `reserve(n)` of a well-formed set, for every `n`, keep
the elements: the keys after the call are a rearrangement of the keys before
it, every key has the `count` it had, the keys are pairwise distinct, `size()`
is what it was, and the state is well-formed again. -/
theorem rehash_reserve_keep (c : Params Key) (hN : 0 < c.N) (s : ADS_set Key) (n : Nat)
    (w : WF c s) :
    ((s.rehash c n).keys.Perm s.keys ∧ (∀ k, (s.rehash c n).count c k = s.count c k) ∧
      (s.rehash c n).keys.Nodup ∧ (s.rehash c n).size = s.size ∧ WF c (s.rehash c n)) ∧
    ((s.reserve c n).keys.Perm s.keys ∧ (∀ k, (s.reserve c n).count c k = s.count c k) ∧
      (s.reserve c n).keys.Nodup ∧ (s.reserve c n).size = s.size ∧ WF c (s.reserve c n)) := by
  have hpos : 0 < max c.N (max n (c.max_lf.div s.current_size)) :=
    lt_of_lt_of_le hN (le_max_left _ _)
  obtain ⟨w1, hp1, _⟩ := rehash_spec w n hpos
  obtain ⟨w2, hp2, _⟩ := reserve_spec w n
  exact ⟨⟨hp1, count_eq_of_mem_iff w1 w (fun k => hp1.mem_iff), w1.nodup,
      size_eq_of_perm w1 w hp1, w1⟩,
    ⟨hp2, count_eq_of_mem_iff w2 w (fun k => hp2.mem_iff), w2.nodup,
      size_eq_of_perm w2 w hp2, w2⟩⟩

theorem rehash_reserve_keep_witness :
    0 < natParams.N ∧ WF natParams exampleSet ∧
      (exampleSet.rehash natParams 4).keys = [12, 5, 7] ∧
      (exampleSet.reserve natParams 9).table_size = 23 ∧
      ((exampleSet.rehash natParams 4).keys.Perm exampleSet.keys ∧
        (∀ k, (exampleSet.rehash natParams 4).count natParams k
          = exampleSet.count natParams k) ∧
        (exampleSet.rehash natParams 4).keys.Nodup ∧
        (exampleSet.rehash natParams 4).size = exampleSet.size ∧
        WF natParams (exampleSet.rehash natParams 4)) :=
  ⟨by decide, by decide, by decide, by decide,
    (rehash_reserve_keep natParams (by decide) exampleSet 4 (by decide)).1⟩

theorem eq_iff {c : Params Key} {a b : ADS_set Key} (wa : WF c a) (wb : WF c b) :
    ADS_set.eq c a b = true ↔ a.current_size = b.current_size ∧ ∀ k ∈ a.keys, k ∈ b.keys := by
  have hall : ((List.range a.table_size).all fun idx =>
      (a.table.getD idx []).all fun k => decide (b.count c k ≠ 0)) = true
        ↔ ∀ k ∈ a.keys, k ∈ b.keys := by
    simp only [List.all_eq_true, List.mem_range, decide_eq_true_eq]
    constructor
    · intro h k hk
      unfold ADS_set.keys at hk
      obtain ⟨i, hi, hki⟩ :=
        (mem_flatten_take_iff _ _ (by rw [wa.length_eq]; omega) k).mp hk
      by_contra hnot
      exact h i hi k hki ((count_eq_zero_iff wb k).mpr hnot)
    · intro h i hi k hki hcount
      have hk : k ∈ a.keys := by
        unfold ADS_set.keys
        exact (mem_flatten_take_iff _ _ (by rw [wa.length_eq]; omega) k).mpr ⟨i, hi, hki⟩
      exact (count_eq_zero_iff wb k).mp hcount (h k hk)
  unfold ADS_set.eq
  by_cases hsz : a.current_size = b.current_size
  · rw [if_neg (by simpa using hsz), hall]
    exact ⟨fun h => ⟨hsz, h⟩, fun h => h.2⟩
  · rw [if_pos hsz]
    simp [hsz]

theorem subset_of_card {c : Params Key} {a b : ADS_set Key} (wa : WF c a) (wb : WF c b)
    (hsz : a.current_size = b.current_size) (hsub : ∀ k ∈ a.keys, k ∈ b.keys) :
    a.keys.Perm b.keys := by
  have hsp : a.keys.Subperm b.keys := List.subperm_of_subset wa.nodup hsub
  exact hsp.perm_of_length_le (by rw [← wa.size_eq, ← wb.size_eq, hsz])

/-- C9: the copy of a well-formed set, made by the copy constructor or by copy
assignment, has the `table_size` and the `size()` of the source, gives every
key the `count` it has in the source, compares equal to the source with
`operator==` in both orders, and is well-formed. -/
theorem copy_equal (c : Params Key) (s t : ADS_set Key) (w : WF c s) :
    t.assign c s = ADS_set.copy c s ∧
      (ADS_set.copy c s).table_size = s.table_size ∧
      (ADS_set.copy c s).size = s.size ∧
      (∀ k, (ADS_set.copy c s).count c k = s.count c k) ∧
      ADS_set.eq c (ADS_set.copy c s) s = true ∧
      ADS_set.eq c s (ADS_set.copy c s) = true ∧
      WF c (ADS_set.copy c s) := by
  obtain ⟨w2, hp, hts⟩ := copy_spec w
  have hsz := size_eq_of_perm w2 w hp
  refine ⟨rfl, hts, hsz, count_eq_of_mem_iff w2 w (fun k => hp.mem_iff), ?_, ?_, w2⟩
  · exact (eq_iff w2 w).mpr ⟨hsz, fun k hk => hp.subset hk⟩
  · exact (eq_iff w w2).mpr ⟨hsz.symm, fun k hk => hp.symm.subset hk⟩

theorem copy_equal_witness :
    WF natParams exampleSet ∧
      ADS_set.copy natParams exampleSet = exampleSet ∧
      (ADS_set.new natParams).assign natParams exampleSet = ADS_set.copy natParams exampleSet ∧
      (ADS_set.copy natParams exampleSet).table_size = exampleSet.table_size ∧
      (ADS_set.copy natParams exampleSet).size = exampleSet.size ∧
      (∀ k, (ADS_set.copy natParams exampleSet).count natParams k
        = exampleSet.count natParams k) ∧
      ADS_set.eq natParams (ADS_set.copy natParams exampleSet) exampleSet = true ∧
      ADS_set.eq natParams exampleSet (ADS_set.copy natParams exampleSet) = true ∧
      WF natParams (ADS_set.copy natParams exampleSet) :=
  ⟨by decide, by decide,
    copy_equal natParams exampleSet (ADS_set.new natParams) (by decide)⟩

/-- C10: for well-formed sets `a` and `b`, `a == b` is true exactly when they
have the same `size()` and every key contained in `a` is contained in `b`; that
holds exactly when every key is contained in both or in neither; and
`operator!=` is the negation of `operator==`. -/
theorem eq_is_set_equality (c : Params Key) (a b : ADS_set Key) (wa : WF c a) (wb : WF c b) :
    (ADS_set.eq c a b = true ↔
      (a.size = b.size ∧ ∀ k, a.count c k = 1 → b.count c k = 1)) ∧
    ((a.size = b.size ∧ ∀ k, a.count c k = 1 → b.count c k = 1) ↔
      ∀ k, a.count c k = 1 ↔ b.count c k = 1) ∧
    ADS_set.ne c a b = !ADS_set.eq c a b := by
  refine ⟨?_, ?_, rfl⟩
  · rw [eq_iff wa wb]
    unfold ADS_set.size
    constructor
    · rintro ⟨h1, h2⟩
      exact ⟨h1, fun k hk => (count_eq_one_iff wb k).mpr (h2 k ((count_eq_one_iff wa k).mp hk))⟩
    · rintro ⟨h1, h2⟩
      exact ⟨h1, fun k hk => (count_eq_one_iff wb k).mp (h2 k ((count_eq_one_iff wa k).mpr hk))⟩
  · constructor
    · rintro ⟨h1, h2⟩ k
      have hp := subset_of_card wa wb h1
        (fun k hk => (count_eq_one_iff wb k).mp (h2 k ((count_eq_one_iff wa k).mpr hk)))
      rw [count_eq_one_iff wa, count_eq_one_iff wb]
      exact hp.mem_iff
    · intro h
      have hmem : ∀ k, k ∈ a.keys ↔ k ∈ b.keys := by
        intro k
        rw [← count_eq_one_iff wa, ← count_eq_one_iff wb]
        exact h k
      refine ⟨?_, fun k hk => (h k).mp hk⟩
      unfold ADS_set.size
      rw [wa.size_eq, wb.size_eq, ← List.toFinset_card_of_nodup wa.nodup,
        ← List.toFinset_card_of_nodup wb.nodup]
      congr 1
      ext k
      simp [hmem k]

theorem eq_is_set_equality_witness :
    WF natParams exampleSet ∧ WF natParams (exampleSet.rehash natParams 30) ∧
      (exampleSet.rehash natParams 30).table_size = 30 ∧
      ADS_set.eq natParams exampleSet (exampleSet.rehash natParams 30) = true ∧
      (ADS_set.eq natParams exampleSet (exampleSet.rehash natParams 30) = true ↔
        (exampleSet.size = (exampleSet.rehash natParams 30).size ∧
          ∀ k, exampleSet.count natParams k = 1 →
            (exampleSet.rehash natParams 30).count natParams k = 1)) :=
  ⟨by decide, by decide, by decide, by decide,
    (eq_is_set_equality natParams exampleSet (exampleSet.rehash natParams 30)
      (by decide) (by decide)).1⟩

/-! ## All public operations -/

theorem insertList_eq_foldl (c : Params Key) (s : ADS_set Key) (ilist : List Key) :
    s.insertList c ilist = ilist.foldl (fun acc k => (acc.insert c k).2) s := by
  unfold ADS_set.insertList
  exact insertRange_eq_foldl c s ilist

theorem erase_wf {c : Params Key} {s : ADS_set Key} (w : WF c s) (k : Key) (r : Nat)
    (s2 : ADS_set Key) (he : s.erase c k = some (r, s2)) : WF c s2 := by
  by_cases hk : k ∈ s.keys
  · obtain ⟨s3, he3, w3, _⟩ := erase_spec w k hk
    rw [he3] at he
    cases he
    exact w3
  · have h0 := erase_of_locate_nil c s k
      (by by_contra hloc; exact hk ((locate_ne_nil_iff w k).mp hloc))
    rw [h0] at he
    cases he
    exact w

/-- Every state that the constructors and the public member functions produce
is well-formed. -/
theorem reachable_all_wf {c : Params Key} (hN : 0 < c.N) {s : ADS_set Key}
    (hr : Reachable c s) : WF c s := by
  induction hr with
  | new => exact new_wf c hN
  | ofList ilist =>
    unfold ADS_set.ofList
    rw [insertList_eq_foldl]
    exact (foldl_insert_spec ilist _ (new_wf c hN)).1
  | ofRange keys =>
    unfold ADS_set.ofRange
    rw [insertRange_eq_foldl]
    exact (foldl_insert_spec keys _ (new_wf c hN)).1
  | copy other _ ih => exact (copy_spec ih).1
  | assign s other _ _ _ ih2 => exact (copy_spec ih2).1
  | assignList s ilist _ _ =>
    unfold ADS_set.assignList ADS_set.swap ADS_set.ofList
    simp only
    rw [insertList_eq_foldl]
    exact (foldl_insert_spec ilist _ (new_wf c hN)).1
  | insert s k _ ih => exact (insert_spec ih k).1
  | insertRange s keys _ ih =>
    rw [insertRange_eq_foldl]
    exact (foldl_insert_spec keys s ih).1
  | insertList s ilist _ ih =>
    rw [insertList_eq_foldl]
    exact (foldl_insert_spec ilist s ih).1
  | erase s k r s2 _ he ih => exact erase_wf ih k r s2 he
  | clear s _ _ => exact new_wf c hN
  | swapThis s other _ _ _ ih2 => exact ih2
  | swapOther s other _ _ ih1 _ => exact ih1

theorem exampleSet_reachable_all : Reachable natParams exampleSet := by
  have h : Reachable natParams (ADS_set.ofList natParams [5, 12, 5, 7]) := Reachable.ofList _
  have heq : ADS_set.ofList natParams [5, 12, 5, 7] = exampleSet := by decide
  rw [heq] at h
  exact h

theorem eightSet_reachable_all : Reachable natParams eightSet := by
  have h : Reachable natParams (ADS_set.ofRange natParams [0, 1, 2, 3, 4, 5, 6, 7]) :=
    Reachable.ofRange _
  have heq : ADS_set.ofRange natParams [0, 1, 2, 3, 4, 5, 6, 7] = eightSet := by decide
  rw [heq] at h
  exact h

/-! ## Equality is an equivalence -/

/-- C11: on well-formed sets `operator==` is reflexive, and symmetric although
it only looks up the keys of its left operand in the right one. -/
theorem eq_refl_symm (c : Params Key) (a b : ADS_set Key) (wa : WF c a) (wb : WF c b) :
    ADS_set.eq c a a = true ∧ (ADS_set.eq c a b = true → ADS_set.eq c b a = true) := by
  constructor
  · exact (eq_iff wa wa).mpr ⟨rfl, fun _ hk => hk⟩
  · intro hab
    obtain ⟨hsz, hsub⟩ := (eq_iff wa wb).mp hab
    have hp := subset_of_card wa wb hsz hsub
    exact (eq_iff wb wa).mpr ⟨hsz.symm, fun k hk => hp.symm.subset hk⟩

theorem eq_refl_symm_witness :
    WF natParams (ADS_set.ofList natParams [1, 12, 23]) ∧
      WF natParams (ADS_set.ofList natParams [23, 12, 1]) ∧
      ADS_set.ofList natParams [1, 12, 23] ≠ ADS_set.ofList natParams [23, 12, 1] ∧
      ADS_set.eq natParams (ADS_set.ofList natParams [1, 2, 3])
        (ADS_set.ofList natParams [3, 2, 1]) = true ∧
      ADS_set.eq natParams (ADS_set.ofList natParams [1, 12, 23])
        (ADS_set.ofList natParams [23, 12, 1]) = true ∧
      ADS_set.eq natParams (ADS_set.ofList natParams [1, 12, 23])
        (ADS_set.ofList natParams [1, 12, 23]) = true ∧
      ADS_set.eq natParams (ADS_set.ofList natParams [23, 12, 1])
        (ADS_set.ofList natParams [1, 12, 23]) = true :=
  ⟨by decide, by decide, by decide, by decide, by decide,
    (eq_refl_symm natParams (ADS_set.ofList natParams [1, 12, 23])
      (ADS_set.ofList natParams [23, 12, 1]) (by decide) (by decide)).1,
    (eq_refl_symm natParams (ADS_set.ofList natParams [1, 12, 23])
      (ADS_set.ofList natParams [23, 12, 1]) (by decide) (by decide)).2 (by decide)⟩

/-! ## `clear` -/

theorem getD_replicate_nil {α : Type} (m idx : Nat) :
    (List.replicate m ([] : List α)).getD idx [] = [] := by
  rw [List.getD_eq_getElem?_getD, List.getElem?_replicate]
  split <;> rfl

theorem getD_new (c : Params Key) (idx : Nat) :
    (ADS_set.new c : ADS_set Key).table.getD idx [] = [] := by
  rw [new_eq]
  exact getD_replicate_nil _ idx

theorem count_new (c : Params Key) (k : Key) : (ADS_set.new c).count c k = 0 := by
  rw [count_eq_zero_iff_locate]
  unfold ADS_set.locate
  rw [getD_new]
  rfl

/-- C12: after `clear()` the state is that of a default constructed set,
whatever it was before: `size()` is 0, `empty()` is true, `table_size` is `N`,
every slot is empty, and `count(k)` is 0 for every key. -/
theorem clear_is_new (c : Params Key) (s : ADS_set Key) :
    s.clear c = ADS_set.new c ∧ (s.clear c).size = 0 ∧ (s.clear c).empty = true ∧
      (s.clear c).table_size = c.N ∧ (∀ idx, (s.clear c).table.getD idx [] = []) ∧
      ∀ k, (s.clear c).count c k = 0 := by
  have hc : s.clear c = ADS_set.new c := rfl
  rw [hc]
  refine ⟨rfl, ?_, ?_, ?_, getD_new c, count_new c⟩
  · rw [new_eq]; rfl
  · rw [new_eq]; rfl
  · rw [new_eq]

/-! ## Invariants of the reachable states -/

theorem keys_length_eq_nodeCount (s : ADS_set Key) (hle : s.table_size ≤ s.table.length) :
    s.keys.length = s.nodeCount := by
  unfold ADS_set.keys ADS_set.nodeCount
  rw [List.length_flatten, ← range_map_getD s.table s.table_size hle, List.map_map]
  rfl

/-- C13: in every state that the constructors and the public member functions
(all forms of `insert`, `erase`, `clear`, copy construction and assignment,
`swap`) produce, `current_size`, which `size()` returns, is the number of
elements found by walking the chains of the buckets `0 .. table_size - 1`. -/
theorem reachable_size_eq_nodeCount (c : Params Key) (hN : 0 < c.N) (s : ADS_set Key)
    (hr : Reachable c s) :
    s.current_size = s.nodeCount ∧ s.size = s.nodeCount := by
  have w := reachable_all_wf hN hr
  have h := keys_length_eq_nodeCount s (by rw [w.length_eq]; omega)
  unfold ADS_set.size
  rw [w.size_eq, h]
  exact ⟨rfl, rfl⟩

theorem reachable_size_eq_nodeCount_witness :
    0 < natParams.N ∧ Reachable natParams exampleSet ∧ exampleSet.nodeCount = 3 ∧
      exampleSet.current_size = exampleSet.nodeCount ∧ exampleSet.size = exampleSet.nodeCount :=
  ⟨by decide, exampleSet_reachable_all, by decide,
    reachable_size_eq_nodeCount natParams (by decide) exampleSet exampleSet_reachable_all⟩

/-- C15: in every state that the constructors and the public member functions
produce, `table_size` is at least `N`, the table has `table_size + 1` slots,
and the sentinel slot `table[table_size]` is empty. -/
theorem reachable_min_sentinel (c : Params Key) (hN : 0 < c.N) (s : ADS_set Key)
    (hr : Reachable c s) :
    c.N ≤ s.table_size ∧ s.table.length = s.table_size + 1 ∧
      s.table.getD s.table_size [] = [] := by
  have w := reachable_all_wf hN hr
  exact ⟨w.min, w.length_eq, w.sentinel⟩

theorem reachable_min_sentinel_witness :
    0 < natParams.N ∧ Reachable natParams eightSet ∧
      natParams.N ≤ eightSet.table_size ∧ eightSet.table.length = eightSet.table_size + 1 ∧
      eightSet.table.getD eightSet.table_size [] = [] :=
  ⟨by decide, eightSet_reachable_all,
    reachable_min_sentinel natParams (by decide) eightSet eightSet_reachable_all⟩

/-! ## The capacity chosen by `reserve` and `rehash` -/

theorem growth_step (a k : Nat) : (2 * a + 1 + 1) * 2 ^ k - 1 = (a + 1) * 2 ^ (k + 1) - 1 := by
  have h : (2 * a + 1 + 1) * 2 ^ k = (a + 1) * 2 ^ (k + 1) := by
    rw [Nat.pow_succ]
    ring
  rw [h]

/-- The loop of `reserve` stops at the first capacity of the sequence
`x, 2 x + 1, 4 x + 3, ...` that passes the test. -/
theorem reserveLoop_spec (lf : MaxLf) (n : Nat) (fuel : Nat) :
    ∀ start : Nat, 2 * n ≤ fuel + start →
      ∃ k : Nat, reserveLoop lf n fuel start = (start + 1) * 2 ^ k - 1 ∧
        lf.ge ((start + 1) * 2 ^ k - 1) n = true ∧
        ∀ j, j < k → lf.ge ((start + 1) * 2 ^ j - 1) n = false := by
  induction fuel with
  | zero =>
    intro start hle
    refine ⟨0, by simp [reserveLoop], ?_, fun j hj => absurd hj (Nat.not_lt_zero j)⟩
    simp only [pow_zero, mul_one, Nat.add_sub_cancel]
    exact lf.ge_of_double start n (by omega)
  | succ f ih =>
    intro start hle
    unfold reserveLoop
    by_cases hge : lf.ge start n = true
    · rw [if_pos hge]
      refine ⟨0, by simp, ?_, fun j hj => absurd hj (Nat.not_lt_zero j)⟩
      simp only [pow_zero, mul_one, Nat.add_sub_cancel]
      exact hge
    · rw [if_neg hge]
      obtain ⟨k, h1, h2, h3⟩ := ih (2 * start + 1) (by omega)
      refine ⟨k + 1, ?_, ?_, ?_⟩
      · rw [h1, growth_step]
      · rw [← growth_step]; exact h2
      · intro j hj
        cases j with
        | zero =>
          simp only [pow_zero, mul_one, Nat.add_sub_cancel]
          simpa using hge
        | succ i =>
          rw [← growth_step]
          exact h3 i (by omega)

/-- C16, as the code has it: for a well-formed set, when
`table_size * max_lf >= n` holds, `reserve(n)` changes nothing; otherwise it
rehashes with the capacity that the step `x := 2 * x + 1` reaches from
`table_size`, which is `(table_size + 1) * 2 ^ k - 1` for the smallest
`k >= 1` that passes the test `capacity * max_lf >= n`, and `table_size`
afterwards is that capacity or, if that is larger,
`size_type(current_size / max_lf)`. -/
theorem reserve_growth (c : Params Key) (s : ADS_set Key) (n : Nat) (w : WF c s) :
    (c.max_lf.ge s.table_size n = true → s.reserve c n = s) ∧
    (c.max_lf.ge s.table_size n = false →
      ∃ k : Nat, 1 ≤ k ∧
        c.max_lf.ge ((s.table_size + 1) * 2 ^ k - 1) n = true ∧
        (∀ j, j < k → c.max_lf.ge ((s.table_size + 1) * 2 ^ j - 1) n = false) ∧
        s.reserve c n = s.rehash c ((s.table_size + 1) * 2 ^ k - 1) ∧
        (s.reserve c n).table_size
          = max ((s.table_size + 1) * 2 ^ k - 1) (c.max_lf.div s.current_size)) := by
  constructor
  · intro hge
    unfold ADS_set.reserve
    rw [if_pos hge]
  · intro hge
    obtain ⟨k, h1, h2, h3⟩ := reserveLoop_spec c.max_lf n (2 * n) s.table_size (by omega)
    have hk : 1 ≤ k := by
      rcases Nat.eq_zero_or_pos k with h0 | hpos
      · subst h0
        simp only [pow_zero, mul_one, Nat.add_sub_cancel] at h2
        rw [hge] at h2
        exact absurd h2 (by decide)
      · exact hpos
    have hres : s.reserve c n = s.rehash c ((s.table_size + 1) * 2 ^ k - 1) := by
      unfold ADS_set.reserve
      rw [if_neg (by simp [hge]), h1]
    refine ⟨k, hk, h2, h3, hres, ?_⟩
    have hloop := reserveLoop_ge c.max_lf n (2 * n) s.table_size
    rw [h1] at hloop
    have hpos : 0 < max c.N (max ((s.table_size + 1) * 2 ^ k - 1)
        (c.max_lf.div s.current_size)) := by
      have hp := w.pos
      have h4 : (s.table_size + 1) * 2 ^ k - 1
          ≤ max c.N (max ((s.table_size + 1) * 2 ^ k - 1) (c.max_lf.div s.current_size)) :=
        le_trans (le_max_left _ _) (le_max_right _ _)
      omega
    rw [hres, (rehash_spec w _ hpos).2.2]
    have hmin := w.min
    have h5 : c.N ≤ max ((s.table_size + 1) * 2 ^ k - 1) (c.max_lf.div s.current_size) :=
      le_trans (le_trans hmin hloop) (le_max_left _ _)
    exact max_eq_right h5

theorem reserve_growth_witness :
    WF natParams sevenSet ∧ natParams.max_lf.ge sevenSet.table_size 8 = false ∧
      sevenSet.reserve natParams 8 = sevenSet.rehash natParams 23 ∧
      (sevenSet.reserve natParams 8).table_size = 23 ∧
      ∃ k : Nat, 1 ≤ k ∧
        natParams.max_lf.ge ((sevenSet.table_size + 1) * 2 ^ k - 1) 8 = true ∧
        (∀ j, j < k → natParams.max_lf.ge ((sevenSet.table_size + 1) * 2 ^ j - 1) 8 = false) ∧
        sevenSet.reserve natParams 8
          = sevenSet.rehash natParams ((sevenSet.table_size + 1) * 2 ^ k - 1) ∧
        (sevenSet.reserve natParams 8).table_size
          = max ((sevenSet.table_size + 1) * 2 ^ k - 1)
              (natParams.max_lf.div sevenSet.current_size) :=
  ⟨by decide, by decide, by decide, by decide,
    (reserve_growth natParams sevenSet 8 (by decide)).2 (by decide)⟩

/-- C16 as the specification words it fails.  First, seven keys sit in 11
buckets and the eighth is inserted: `reserve(8)` does not pass the test
(`11 * 0.7 < 8`), doubling would stop at 22 (`22 * 0.7 >= 8`), but the table
ends with 23 buckets, which is not `11 * 2 ^ k` for any `k`.  Second, in a
well-formed table of 11 buckets with 17 keys `reserve(8)` calls `rehash(23)`
and the table ends with 24 buckets, because `size_type(17 / 0.7)` is 24. -/
theorem reserve_not_doubling :
    Reachable natParams sevenSet ∧ sevenSet.count natParams 7 = 0 ∧
      natParams.max_lf.ge sevenSet.table_size 8 = false ∧
      natParams.max_lf.ge (sevenSet.table_size * 2 ^ 1) 8 = true ∧
      (sevenSet.reserve natParams (sevenSet.current_size + 1)).table_size = 23 ∧
      (sevenSet.insert natParams 7).2 = eightSet ∧
      (sevenSet.insert natParams 7).2.table_size = 23 ∧
      (∀ k : Nat, (sevenSet.insert natParams 7).2.table_size ≠ sevenSet.table_size * 2 ^ k) ∧
      WF natParams crowdedSet ∧
      natParams.max_lf.ge crowdedSet.table_size 8 = false ∧
      crowdedSet.reserve natParams 8 = crowdedSet.rehash natParams 23 ∧
      natParams.max_lf.div crowdedSet.current_size = 24 ∧
      (crowdedSet.reserve natParams 8).table_size = 24 := by
  have hreach : Reachable natParams sevenSet := by
    have h : Reachable natParams (ADS_set.ofRange natParams [0, 1, 2, 3, 4, 5, 6]) :=
      Reachable.ofRange _
    have heq : ADS_set.ofRange natParams [0, 1, 2, 3, 4, 5, 6] = sevenSet := by decide
    rw [heq] at h
    exact h
  have hts : (sevenSet.insert natParams 7).2.table_size = 23 := by decide
  refine ⟨hreach, by decide, by decide, by decide, by decide, by decide, hts, ?_,
    by decide, by decide, by decide, by decide, by decide⟩
  intro k hk
  rw [hts] at hk
  have h11 : sevenSet.table_size = 11 := rfl
  rw [h11] at hk
  omega

/-- C18: `insert(first, last)` and `insert(std::initializer_list)` leave every
set in exactly the state (same `table_size`, `current_size` and chains, in the
same order) that calling `insert(key)` for each key of the sequence in order
leaves it in; each round makes its own capacity check. -/
theorem insertRange_is_insertEach (c : Params Key) (s : ADS_set Key) (keys : List Key) :
    s.insertRange c keys = s.insertEach c keys ∧
      s.insertList c keys = s.insertEach c keys ∧
      ∀ (k : Key) (rest : List Key),
        s.insertRange c (k :: rest)
          = (if s.count c k = 0 then ((s.reserve c (s.current_size + 1)).add c k).2
              else s).insertRange c rest := by
  refine ⟨insertRange_eq_foldl c s keys, insertList_eq_foldl c s keys, ?_⟩
  intro k rest
  rfl

/-! ## Routing and index bounds -/

/-- C19: in every state that the constructors and the public member functions
produce, every key in the chain of bucket `i` has `hash(key) mod table_size`
equal to `i`, and no key occurs twice in the table; so `locate`, which scans
only bucket `hash(k) mod table_size`, finds `k` exactly when some bucket holds
it, and `count` tells 1 from 0 accordingly. -/
theorem reachable_routed (c : Params Key) (hN : 0 < c.N) (s : ADS_set Key)
    (hr : Reachable c s) :
    (∀ idx, idx < s.table_size → ∀ k ∈ s.table.getD idx [],
      c.hasher k % s.table_size = idx) ∧
    s.keys.Nodup ∧
    (∀ k, s.locate c k ≠ [] ↔ ∃ idx, idx < s.table_size ∧ k ∈ s.table.getD idx []) ∧
    (∀ k, s.count c k = 1 ↔ ∃ idx, idx < s.table_size ∧ k ∈ s.table.getD idx []) ∧
    (∀ k, s.count c k = 0 ↔ ¬ ∃ idx, idx < s.table_size ∧ k ∈ s.table.getD idx []) := by
  have w := reachable_all_wf hN hr
  have hmem : ∀ k, k ∈ s.keys ↔ ∃ idx, idx < s.table_size ∧ k ∈ s.table.getD idx [] := by
    intro k
    unfold ADS_set.keys
    exact mem_flatten_take_iff _ _ (by rw [w.length_eq]; omega) k
  refine ⟨w.routed, w.nodup, ?_, ?_, ?_⟩
  · intro k
    rw [locate_ne_nil_iff w k, hmem]
  · intro k
    rw [count_eq_one_iff w k, hmem]
  · intro k
    rw [count_eq_zero_iff w k, hmem]

theorem reachable_routed_witness :
    0 < natParams.N ∧ Reachable natParams (ADS_set.copy natParams eightSet) ∧
      (ADS_set.copy natParams eightSet).keys = [0, 1, 2, 3, 4, 5, 6, 7] ∧
      (∀ idx, idx < (ADS_set.copy natParams eightSet).table_size →
        ∀ k ∈ (ADS_set.copy natParams eightSet).table.getD idx [],
          natParams.hasher k % (ADS_set.copy natParams eightSet).table_size = idx) ∧
      (ADS_set.copy natParams eightSet).keys.Nodup :=
  ⟨by decide, Reachable.copy _ eightSet_reachable_all, by decide,
    (reachable_routed natParams (by decide) (ADS_set.copy natParams eightSet)
      (Reachable.copy _ eightSet_reachable_all)).1,
    (reachable_routed natParams (by decide) (ADS_set.copy natParams eightSet)
      (Reachable.copy _ eightSet_reachable_all)).2.1⟩

theorem skipLoopReads_le (line : List (List Key)) (end_ : Nat) (fuel : Nat) :
    ∀ (e : List Key) (idx : Nat),
      ∀ i ∈ Iterator.skipLoopReads line end_ fuel e idx, i ≤ end_ := by
  induction fuel with
  | zero =>
    intro e idx i hi
    simp [Iterator.skipLoopReads] at hi
  | succ f ih =>
    intro e idx i hi
    unfold Iterator.skipLoopReads at hi
    by_cases hcond : e = [] ∧ idx < end_
    · rw [if_pos hcond] at hi
      rcases List.mem_cons.mp hi with rfl | h2
      · exact hcond.2
      · exact ih _ _ i h2
    · rw [if_neg hcond] at hi
      simp at hi

theorem skipReads_le (it : Iterator Key) : ∀ i ∈ it.skipReads, i ≤ it.end_ :=
  skipLoopReads_le it.line it.end_ _ it.e it.idx

theorem newReads_le (e : List Key) (line : List (List Key)) (end_ idx : Nat) :
    ∀ i ∈ Iterator.newReads e line end_ idx, i ≤ end_ := by
  intro i hi
  unfold Iterator.newReads at hi
  split at hi
  · exact skipReads_le _ i hi
  · simp at hi

theorem nextReads_le (it : Iterator Key) : ∀ i ∈ it.nextReads, i ≤ it.end_ := by
  intro i hi
  unfold Iterator.nextReads at hi
  split at hi
  · simp at hi
  · rename_i rest _
    exact skipReads_le ({ it with e := rest } : Iterator Key) i hi

/-- The loop of `skip` runs as long as its condition holds: the bound
`end - idx` on the rounds is never what stops it. -/
theorem skipLoop_exit (line : List (List Key)) (end_ : Nat) (fuel : Nat) :
    ∀ (e : List Key) (idx : Nat), end_ - idx ≤ fuel →
      ¬ ((Iterator.skipLoop line end_ fuel e idx).1 = [] ∧
        (Iterator.skipLoop line end_ fuel e idx).2 < end_) := by
  induction fuel with
  | zero =>
    intro e idx hfuel hcond
    have h2 : idx < end_ := hcond.2
    omega
  | succ f ih =>
    intro e idx hfuel
    unfold Iterator.skipLoop
    by_cases hcond : e = [] ∧ idx < end_
    · rw [if_pos hcond]
      exact ih _ _ (by omega)
    · rw [if_neg hcond]
      exact hcond

theorem erase_isSome {c : Params Key} {s : ADS_set Key} (w : WF c s) (k : Key) :
    ∃ (r : Nat) (s2 : ADS_set Key), s.erase c k = some (r, s2) := by
  by_cases hk : k ∈ s.keys
  · obtain ⟨s2, he, _⟩ := erase_spec w k hk
    exact ⟨1, s2, he⟩
  · exact ⟨0, s, erase_of_locate_nil c s k
      (by by_contra hloc; exact hk ((locate_ne_nil_iff w k).mp hloc))⟩

/-- C20: with `N >= 1`, in every state that the constructors and the public
member functions produce, `table_size >= 1`, so `h` never divides by zero and
the bucket index `h(k)` used by `locate`, `find`, `insert`, `erase` and by
`add` (which `insert` runs after `reserve`) is below `table_size`; every slot
index read by `begin()`, `end()`, `skip()` and `operator++` of an iterator
over the table is at most `table_size`, the index of the sentinel and the last
slot of the table; and the walk of `erase` reaches the located element. -/
theorem reachable_indices (c : Params Key) (hN : 1 ≤ c.N) (s : ADS_set Key)
    (hr : Reachable c s) :
    1 ≤ s.table_size ∧
    (∀ k, s.h c k < s.table_size) ∧
    (∀ k, (s.reserve c (s.current_size + 1)).h c k
      < (s.reserve c (s.current_size + 1)).table_size) ∧
    s.table.length = s.table_size + 1 ∧
    (∀ i ∈ s.beginReads, i ≤ s.table_size) ∧
    (∀ i ∈ s.endReads, i ≤ s.table_size) ∧
    (∀ (e : List Key) (idx : Nat),
      (∀ i ∈ (⟨e, s.table, s.table_size, idx⟩ : Iterator Key).skipReads, i ≤ s.table_size) ∧
      (∀ i ∈ (⟨e, s.table, s.table_size, idx⟩ : Iterator Key).nextReads,
        i ≤ s.table_size)) ∧
    (∀ k, ∃ (r : Nat) (s2 : ADS_set Key), s.erase c k = some (r, s2)) := by
  have w := reachable_all_wf hN hr
  have w2 := (reserve_spec w (s.current_size + 1)).1
  refine ⟨w.pos, fun k => h_lt w.pos k, fun k => h_lt w2.pos k, w.length_eq, ?_, ?_, ?_,
    fun k => erase_isSome w k⟩
  · intro i hi
    unfold ADS_set.beginReads at hi
    rcases List.mem_cons.mp hi with rfl | h2
    · exact Nat.zero_le _
    · exact newReads_le _ _ _ _ i h2
  · intro i hi
    unfold ADS_set.endReads at hi
    rcases List.mem_cons.mp hi with rfl | h2
    · exact le_refl _
    · exact newReads_le _ _ _ _ i h2
  · intro e idx
    exact ⟨skipReads_le _, nextReads_le _⟩

theorem reachable_indices_witness :
    1 ≤ natParams.N ∧ Reachable natParams exampleSet ∧
      exampleSet.beginReads = [0, 1] ∧ exampleSet.endReads = [11] ∧
      (⟨[7], exampleSet.table, exampleSet.table_size, 7⟩ : Iterator Nat).nextReads
        = [8, 9, 10, 11] ∧
      1 ≤ exampleSet.table_size ∧ (∀ k, exampleSet.h natParams k < exampleSet.table_size) :=
  ⟨by decide, exampleSet_reachable_all, by decide, by decide, by decide,
    (reachable_indices natParams (by decide) exampleSet exampleSet_reachable_all).1,
    (reachable_indices natParams (by decide) exampleSet exampleSet_reachable_all).2.1⟩

/-! ## Single precision -/

theorem excessBits_spec (fuel : Nat) :
    ∀ a : Nat, a < 2 ^ (24 + fuel) →
      a < 2 ^ (24 + excessBits fuel a) ∧
      (excessBits fuel a = 0 ∨ 2 ^ (23 + excessBits fuel a) ≤ a) := by
  induction fuel with
  | zero =>
    intro a ha
    exact ⟨by simpa [excessBits] using ha, Or.inl rfl⟩
  | succ f ih =>
    intro a ha
    unfold excessBits
    by_cases hsmall : a < 2 ^ 24
    · rw [if_pos hsmall]
      exact ⟨by simpa using hsmall, Or.inl rfl⟩
    · rw [if_neg hsmall]
      have hhalf : a / 2 < 2 ^ (24 + f) := by
        have h2 : (2 : Nat) ^ (24 + (f + 1)) = 2 * 2 ^ (24 + f) := by
          rw [← Nat.add_assoc, Nat.pow_succ]; ring
        rw [h2] at ha
        omega
      obtain ⟨h1, h2⟩ := ih (a / 2) hhalf
      constructor
      · have h3 : (2 : Nat) ^ (24 + (excessBits f (a / 2) + 1))
            = 2 * 2 ^ (24 + excessBits f (a / 2)) := by
          rw [← Nat.add_assoc, Nat.pow_succ]; ring
        rw [h3]
        omega
      · right
        have h3 : (2 : Nat) ^ (23 + (excessBits f (a / 2) + 1))
            = 2 * 2 ^ (23 + excessBits f (a / 2)) := by
          rw [← Nat.add_assoc, Nat.pow_succ]; ring
        rw [h3]
        rcases h2 with h0 | hge
        · rw [h0]
          simp only [Nat.add_zero]
          have : (2 : Nat) * 2 ^ 23 = 2 ^ 24 := by norm_num
          omega
        · omega

theorem lt_two_pow_self_add (a : Nat) : a < 2 ^ (24 + a) := by
  have h1 : a < 2 ^ a := Nat.lt_two_pow a
  have h2 : 2 ^ a ≤ 2 ^ (24 + a) := Nat.pow_le_pow_right (by norm_num) (by omega)
  omega

/-- With `u` the unit in the last place of `a`: `a < 2 ^ 24 * u`, and `u = 1` or
`2 ^ 23 * u <= a`. -/
theorem excess_bounds (a : Nat) :
    a < 2 ^ 24 * 2 ^ excessBits a a ∧
      (excessBits a a = 0 ∨ 2 ^ 23 * 2 ^ excessBits a a ≤ a) := by
  obtain ⟨h1, h2⟩ := excessBits_spec a a (lt_two_pow_self_add a)
  rw [Nat.pow_add] at h1
  refine ⟨h1, ?_⟩
  rcases h2 with h0 | hge
  · exact Or.inl h0
  · right
    rw [Nat.pow_add] at hge
    exact hge

theorem nearestEven_bounds (num den : Nat) (hden : 0 < den) :
    2 * num ≤ 2 * (nearestEven num den * den) + den ∧
      2 * (nearestEven num den * den) ≤ 2 * num + den ∧
      num / den ≤ nearestEven num den ∧ nearestEven num den ≤ num / den + 1 := by
  have hdm := Nat.div_add_mod num den
  have hmod := Nat.mod_lt num hden
  have hmul : den * (num / den) = num / den * den := Nat.mul_comm _ _
  unfold nearestEven
  split
  · rename_i h
    refine ⟨?_, ?_, le_refl _, Nat.le_succ _⟩
    · rcases h with h | h <;> omega
    · omega
  · rename_i h
    have h1 : ¬ 2 * (num % den) < den := fun hh => h (Or.inl hh)
    have hexp : (num / den + 1) * den = num / den * den + den := by ring
    refine ⟨?_, ?_, Nat.le_succ _, le_refl _⟩
    · rw [hexp]; omega
    · rw [hexp]; omega

theorem round24_of_small (a : Nat) (ha : a < 2 ^ 24) : round24 a = a := by
  have h0 : excessBits a a = 0 := by
    cases a with
    | zero => rfl
    | succ n => unfold excessBits; rw [if_pos ha]
  unfold round24
  rw [h0]
  simp [nearestEven, Nat.mod_one]

theorem round24_error (a : Nat) :
    a * (2 ^ 24 - 1) ≤ round24 a * 2 ^ 24 ∧ round24 a * 2 ^ 24 ≤ a * (2 ^ 24 + 1) := by
  obtain ⟨hlt, hge⟩ := excess_bounds a
  have hu : 0 < 2 ^ excessBits a a := Nat.two_pow_pos _
  obtain ⟨h1, h2, _, _⟩ := nearestEven_bounds a (2 ^ excessBits a a) hu
  rcases hge with h0 | hge
  · have hsmall : a < 2 ^ 24 := by
      rw [h0] at hlt
      simpa using hlt
    rw [round24_of_small a hsmall]
    constructor
    · exact Nat.mul_le_mul_left a (by norm_num)
    · exact Nat.mul_le_mul_left a (by norm_num)
  · unfold round24
    generalize nearestEven a (2 ^ excessBits a a) * 2 ^ excessBits a a = r at h1 h2 ⊢
    generalize 2 ^ excessBits a a = u at hge h1 h2 hu
    norm_num at hge ⊢
    constructor <;> omega

theorem f32ge_of_double (table_size n : Nat) (h : 2 * n ≤ table_size) :
    f32ge table_size n = true := by
  unfold f32ge
  rw [decide_eq_true_eq]
  obtain ⟨_, hn⟩ := round24_error n
  obtain ⟨ht, _⟩ := round24_error table_size
  obtain ⟨hp, _⟩ := round24_error (round24 table_size * 11744051)
  generalize round24 (round24 table_size * 11744051) = p at hp ⊢
  generalize round24 table_size = t at ht hp
  generalize round24 n = x at hn ⊢
  norm_num at hn ht hp ⊢
  omega

theorem excessBits_mono (a b : Nat) (hab : a ≤ b) : excessBits a a ≤ excessBits b b := by
  by_contra hlt
  have hlt2 : excessBits b b + 1 ≤ excessBits a a := by omega
  obtain ⟨_, hga⟩ := excess_bounds a
  obtain ⟨hlb, _⟩ := excess_bounds b
  rcases hga with h0 | hga
  · omega
  · have hpow : 2 ^ (excessBits b b + 1) ≤ 2 ^ excessBits a a :=
      Nat.pow_le_pow_right (by norm_num) hlt2
    rw [Nat.pow_succ] at hpow
    generalize 2 ^ excessBits a a = ua at hga hpow
    generalize 2 ^ excessBits b b = ub at hlb hpow
    norm_num at hga hlb
    omega

theorem round24_mono (a b : Nat) (hab : a ≤ b) : round24 a ≤ round24 b := by
  have he := excessBits_mono a b hab
  obtain ⟨hla, _⟩ := excess_bounds a
  obtain ⟨_, hgb⟩ := excess_bounds b
  have hua : 0 < 2 ^ excessBits a a := Nat.two_pow_pos _
  have hub : 0 < 2 ^ excessBits b b := Nat.two_pow_pos _
  obtain ⟨_, _, _, ha4⟩ := nearestEven_bounds a (2 ^ excessBits a a) hua
  obtain ⟨_, _, hb3, _⟩ := nearestEven_bounds b (2 ^ excessBits b b) hub
  rcases Nat.lt_or_ge (excessBits a a) (excessBits b b) with hlt | hge
  · -- different binades: a power of two lies between the two results
    have hpow : 2 ^ (excessBits a a + 1) ≤ 2 ^ excessBits b b :=
      Nat.pow_le_pow_right (by norm_num) hlt
    rw [Nat.pow_succ] at hpow
    have hb0 : excessBits b b ≠ 0 := by omega
    have hgb2 : 2 ^ 23 * 2 ^ excessBits b b ≤ b := by
      rcases hgb with h0 | h
      · exact absurd h0 hb0
      · exact h
    have hqa : a / 2 ^ excessBits a a < 2 ^ 24 := by
      rw [Nat.div_lt_iff_lt_mul hua]
      exact hla
    have hqb : 2 ^ 23 ≤ b / 2 ^ excessBits b b := by
      rw [Nat.le_div_iff_mul_le hub]
      exact hgb2
    unfold round24
    calc nearestEven a (2 ^ excessBits a a) * 2 ^ excessBits a a
        ≤ 2 ^ 24 * 2 ^ excessBits a a := Nat.mul_le_mul_right _ (by omega)
      _ ≤ 2 ^ 23 * 2 ^ excessBits b b := by
          generalize 2 ^ excessBits a a = ua at hpow
          generalize 2 ^ excessBits b b = ub at hpow
          norm_num
          omega
      _ ≤ nearestEven b (2 ^ excessBits b b) * 2 ^ excessBits b b :=
          Nat.mul_le_mul_right _ (by omega)
  · -- same binade
    have heq : excessBits a a = excessBits b b := by omega
    unfold round24
    rw [heq] at ha4 hua ⊢
    refine Nat.mul_le_mul_right _ ?_
    have hq : a / 2 ^ excessBits b b ≤ b / 2 ^ excessBits b b := Nat.div_le_div_right hab
    rcases Nat.lt_or_ge (a / 2 ^ excessBits b b) (b / 2 ^ excessBits b b) with hqlt | hqge
    · omega
    · have hqeq : a / 2 ^ excessBits b b = b / 2 ^ excessBits b b := by omega
      have hda := Nat.div_add_mod a (2 ^ excessBits b b)
      have hdb := Nat.div_add_mod b (2 ^ excessBits b b)
      rw [hqeq] at hda
      have hr : a % 2 ^ excessBits b b ≤ b % 2 ^ excessBits b b := by omega
      unfold nearestEven
      rw [hqeq]
      split <;> split <;> omega

/-- The first disjunct in `f32Lf` is redundant: the load test of `f32Lf` is the
single precision computation `f32ge`. -/
theorem f32Lf_ge (table_size n : Nat) : f32Lf.ge table_size n = f32ge table_size n := by
  show (decide (2 * n ≤ table_size) || f32ge table_size n) = f32ge table_size n
  by_cases h : 2 * n ≤ table_size
  · rw [f32ge_of_double table_size n h]
    simp
  · simp [h]

theorem f32ge_mono_left (a b n : Nat) (hab : a ≤ b) (h : f32ge a n = true) :
    f32ge b n = true := by
  unfold f32ge at h ⊢
  rw [decide_eq_true_eq] at h ⊢
  exact le_trans h (round24_mono _ _ (Nat.mul_le_mul_right _ (round24_mono a b hab)))

theorem f32ge_mono_right (a m n : Nat) (hmn : m ≤ n) (h : f32ge a n = true) :
    f32ge a m = true := by
  unfold f32ge at h ⊢
  rw [decide_eq_true_eq] at h ⊢
  exact le_trans (Nat.mul_le_mul_right _ (round24_mono m n hmn)) h

/-- Single precision obeys the monotonicity laws. -/
theorem f32Lf_monotone : f32Lf.Monotone := by
  constructor
  · intro a b n hab h
    rw [f32Lf_ge] at h ⊢
    exact f32ge_mono_left a b n hab h
  · intro a m n hmn h
    rw [f32Lf_ge] at h ⊢
    exact f32ge_mono_right a m n hmn h

/-- Exact arithmetic obeys the monotonicity laws. -/
theorem exactLf_monotone : exactLf.Monotone := by
  constructor
  · intro a b n hab h
    simp only [exactLf, decide_eq_true_eq] at h ⊢
    omega
  · intro a m n hmn h
    simp only [exactLf, decide_eq_true_eq] at h ⊢
    omega

/-! ## The load test after insertions -/

theorem reserve_sizes {c : Params Key} {s : ADS_set Key} (w : WF c s) (n : Nat) :
    (s.reserve c n).table_size
        = (if c.max_lf.ge s.table_size n then s.table_size
            else max c.N (max (reserveLoop c.max_lf n (2 * n) s.table_size)
              (c.max_lf.div s.current_size))) ∧
      (s.reserve c n).current_size = s.current_size := by
  obtain ⟨w2, hp, _⟩ := reserve_spec w n
  refine ⟨?_, by rw [w2.size_eq, w.size_eq, hp.length_eq]⟩
  unfold ADS_set.reserve
  by_cases hge : c.max_lf.ge s.table_size n = true
  · rw [if_pos hge, if_pos hge]
  · rw [if_neg hge, if_neg hge]
    have hpos : 0 < max c.N (max (reserveLoop c.max_lf n (2 * n) s.table_size)
        (c.max_lf.div s.current_size)) := by
      have h1 := reserveLoop_ge c.max_lf n (2 * n) s.table_size
      have h2 := w.pos
      have h3 : reserveLoop c.max_lf n (2 * n) s.table_size
          ≤ max c.N (max (reserveLoop c.max_lf n (2 * n) s.table_size)
            (c.max_lf.div s.current_size)) :=
        le_trans (le_max_left _ _) (le_max_right _ _)
      omega
    exact (rehash_spec w _ hpos).2.2

theorem insert_sizes {c : Params Key} {s : ADS_set Key} (w : WF c s) (k : Key)
    (hk : s.locate c k = []) :
    ((s.insert c k).2.table_size, (s.insert c k).2.current_size)
      = loadStep c (s.table_size, s.current_size) := by
  obtain ⟨h1, h2⟩ := reserve_sizes w (s.current_size + 1)
  rw [insert_of_not_mem c s k hk]
  simp only
  rw [add_snd]
  simp only
  rw [h1, h2]
  unfold loadStep
  simp only
  split <;> rfl

theorem loadStep_ge (c : Params Key) (hm : c.max_lf.Monotone) (p : Nat × Nat) :
    c.max_lf.ge (loadStep c p).1 (loadStep c p).2 = true := by
  unfold loadStep
  by_cases hge : c.max_lf.ge p.1 (p.2 + 1) = true
  · rw [if_pos hge]
    exact hge
  · rw [if_neg hge]
    simp only
    have hexit := reserveLoop_exit c.max_lf (p.2 + 1) (2 * (p.2 + 1)) p.1 (by omega)
    exact hm.1 _ _ _ (le_trans (le_max_left _ _) (le_max_right _ _)) hexit

theorem insert_load {c : Params Key} (hm : c.max_lf.Monotone) {s : ADS_set Key} (w : WF c s)
    (k : Key) (hk : s.locate c k = []) :
    c.max_lf.ge (s.insert c k).2.table_size (s.insert c k).2.current_size = true := by
  have h := insert_sizes w k hk
  have h1 : (s.insert c k).2.table_size = (loadStep c (s.table_size, s.current_size)).1 := by
    rw [← h]
  have h2 : (s.insert c k).2.current_size = (loadStep c (s.table_size, s.current_size)).2 := by
    rw [← h]
  rw [h1, h2]
  exact loadStep_ge c hm _

theorem insert_load_inv {c : Params Key} (hm : c.max_lf.Monotone) {s : ADS_set Key}
    (w : WF c s) (hs : c.max_lf.ge s.table_size s.current_size = true) (k : Key) :
    c.max_lf.ge (s.insert c k).2.table_size (s.insert c k).2.current_size = true := by
  by_cases hk : s.locate c k = []
  · exact insert_load hm w k hk
  · rw [insert_of_mem c s k hk]
    exact hs

theorem foldl_insert_load {c : Params Key} (hm : c.max_lf.Monotone) (l : List Key) :
    ∀ s : ADS_set Key, WF c s → c.max_lf.ge s.table_size s.current_size = true →
      c.max_lf.ge (l.foldl (fun a k => (a.insert c k).2) s).table_size
        (l.foldl (fun a k => (a.insert c k).2) s).current_size = true := by
  induction l with
  | nil => intro s _ hs; exact hs
  | cons k t ih =>
    intro s w hs
    rw [List.foldl_cons]
    exact ih _ (insert_spec w k).1 (insert_load_inv hm w hs k)

theorem new_load (c : Params Key) :
    c.max_lf.ge (ADS_set.new c : ADS_set Key).table_size
      (ADS_set.new c : ADS_set Key).current_size = true := by
  rw [new_eq]
  exact c.max_lf.ge_of_double _ _ (by simp)

theorem erase_load {c : Params Key} (hm : c.max_lf.Monotone) {s : ADS_set Key} (w : WF c s)
    (hs : c.max_lf.ge s.table_size s.current_size = true) (k : Key) (r : Nat)
    (s2 : ADS_set Key) (he : s.erase c k = some (r, s2)) :
    c.max_lf.ge s2.table_size s2.current_size = true := by
  by_cases hk : k ∈ s.keys
  · obtain ⟨s3, he3, _, _, hts, hcs⟩ := erase_spec w k hk
    rw [he3] at he
    cases he
    rw [hts]
    exact hm.2 _ _ _ (by omega) hs
  · have h0 := erase_of_locate_nil c s k
      (by by_contra hloc; exact hk ((locate_ne_nil_iff w k).mp hloc))
    rw [h0] at he
    cases he
    exact hs

/-- In every state that the constructors and the public member functions
produce, the load test holds for the present size. -/
theorem reachable_load {c : Params Key} (hN : 0 < c.N) (hm : c.max_lf.Monotone)
    {s : ADS_set Key} (hr : Reachable c s) :
    c.max_lf.ge s.table_size s.current_size = true := by
  induction hr with
  | new => exact new_load c
  | ofList ilist =>
    unfold ADS_set.ofList
    rw [insertList_eq_foldl]
    exact foldl_insert_load hm ilist _ (new_wf c hN) (new_load c)
  | ofRange keys =>
    unfold ADS_set.ofRange
    rw [insertRange_eq_foldl]
    exact foldl_insert_load hm keys _ (new_wf c hN) (new_load c)
  | copy other ho ih =>
    have w := reachable_all_wf hN ho
    obtain ⟨w2, hp, hts⟩ := copy_spec w
    rw [hts, w2.size_eq, hp.length_eq, ← w.size_eq]
    exact ih
  | assign s other _ ho _ ih2 =>
    have w := reachable_all_wf hN ho
    obtain ⟨w2, hp, hts⟩ := copy_spec w
    show c.max_lf.ge (ADS_set.copy c other).table_size (ADS_set.copy c other).current_size = true
    rw [hts, w2.size_eq, hp.length_eq, ← w.size_eq]
    exact ih2
  | assignList s ilist _ _ =>
    show c.max_lf.ge (ADS_set.ofList c ilist).table_size
      (ADS_set.ofList c ilist).current_size = true
    unfold ADS_set.ofList
    rw [insertList_eq_foldl]
    exact foldl_insert_load hm ilist _ (new_wf c hN) (new_load c)
  | insert s k hs ih => exact insert_load_inv hm (reachable_all_wf hN hs) ih k
  | insertRange s keys hs ih =>
    rw [insertRange_eq_foldl]
    exact foldl_insert_load hm keys s (reachable_all_wf hN hs) ih
  | insertList s ilist hs ih =>
    rw [insertList_eq_foldl]
    exact foldl_insert_load hm ilist s (reachable_all_wf hN hs) ih
  | erase s k r s2 hs he ih => exact erase_load hm (reachable_all_wf hN hs) ih k r s2 he
  | clear s _ _ => exact new_load c
  | swapThis s other _ _ _ ih2 => exact ih2
  | swapOther s other _ _ ih1 _ => exact ih1

/-- C14, as the code has it: after `insert` of a key that a well-formed set did
not contain, and in every state that the constructors and the public member
functions produce, the load test of `reserve` holds for the present size,
`table_size * max_lf >= current_size` as the code evaluates it (for every
arithmetic that obeys the monotonicity laws, single precision included).
Where the arithmetic is exact this is `10 * current_size <= 7 * table_size`. -/
theorem load_test_holds (c : Params Key) (hN : 0 < c.N) (hm : c.max_lf.Monotone)
    (s : ADS_set Key) :
    (∀ k, WF c s → s.count c k = 0 →
      c.max_lf.ge (s.insert c k).2.table_size (s.insert c k).2.current_size = true) ∧
    (Reachable c s → c.max_lf.ge s.table_size s.current_size = true) ∧
    (Reachable c s → c.max_lf = exactLf → 10 * s.current_size ≤ 7 * s.table_size) := by
  refine ⟨?_, fun hr => reachable_load hN hm hr, ?_⟩
  · intro k w hk
    exact insert_load hm w k ((count_eq_zero_iff_locate c s k).mp hk)
  · intro hr hex
    have h := reachable_load hN hm hr
    rw [hex] at h
    simpa [exactLf] using h

theorem load_test_holds_witness :
    0 < f32Params.N ∧ f32Params.max_lf.Monotone ∧ Reachable f32Params eightSet ∧
      f32Params.max_lf.ge eightSet.table_size eightSet.current_size = true ∧
      0 < natParams.N ∧ natParams.max_lf.Monotone ∧ Reachable natParams eightSet ∧
      10 * eightSet.current_size ≤ 7 * eightSet.table_size := by
  have hr32 : Reachable f32Params eightSet := by
    have h : Reachable f32Params (ADS_set.ofRange f32Params [0, 1, 2, 3, 4, 5, 6, 7]) :=
      Reachable.ofRange _
    have heq : ADS_set.ofRange f32Params [0, 1, 2, 3, 4, 5, 6, 7] = eightSet := by decide
    rw [heq] at h
    exact h
  exact ⟨by decide, f32Lf_monotone, hr32,
    (load_test_holds f32Params (by decide) f32Lf_monotone eightSet).2.1 hr32,
    by decide, exactLf_monotone, eightSet_reachable_all,
    (load_test_holds natParams (by decide) exactLf_monotone eightSet).2.2
      eightSet_reachable_all rfl⟩

/-! ## Where single precision breaks the exact bound -/

theorem insertEach_sizes {c : Params Key} (l : List Key) :
    ∀ s : ADS_set Key, WF c s → l.Nodup → (∀ k ∈ l, k ∉ s.keys) →
      ((s.insertEach c l).table_size, (s.insertEach c l).current_size)
        = (loadStep c)^[l.length] (s.table_size, s.current_size) := by
  induction l with
  | nil => intro s _ _ _; rfl
  | cons k t ih =>
    intro s w hnd hdisj
    obtain ⟨hkt, hndt⟩ := List.nodup_cons.mp hnd
    have hk : k ∉ s.keys := hdisj k (List.mem_cons_self k t)
    have hloc : s.locate c k = [] := by
      by_contra hne
      exact hk ((locate_ne_nil_iff w k).mp hne)
    obtain ⟨w1, hmem⟩ := insert_spec w k
    have hdisj1 : ∀ x ∈ t, x ∉ (s.insert c k).2.keys := by
      intro x hx hin
      rcases (hmem x).mp hin with rfl | h2
      · exact hkt hx
      · exact hdisj x (List.mem_cons_of_mem k hx) h2
    have h := ih (s.insert c k).2 w1 hndt hdisj1
    have hcons : s.insertEach c (k :: t) = (s.insert c k).2.insertEach c t := rfl
    rw [hcons, h, insert_sizes w k hloc, List.length_cons, Function.iterate_succ_apply]

theorem loadStep_run (c : Params Key)
    (hanti : ∀ a m n : Nat, m ≤ n → c.max_lf.ge a n = true → c.max_lf.ge a m = true)
    (m : Nat) :
    ∀ table_size current_size : Nat, c.max_lf.ge table_size (current_size + m) = true →
      (loadStep c)^[m] (table_size, current_size) = (table_size, current_size + m) := by
  induction m with
  | zero => intro a b _; rfl
  | succ j ih =>
    intro a b h
    have h1 : c.max_lf.ge a (b + 1) = true := hanti a (b + 1) (b + (j + 1)) (by omega) h
    have hstep : loadStep c (a, b) = (a, b + 1) := by
      unfold loadStep
      simp only
      rw [if_pos h1]
    rw [Function.iterate_succ_apply, hstep, ih a (b + 1) (by rw [← h]; congr 1; omega)]
    congr 1
    omega

theorem followPlan_iterate (c : Params Key)
    (hanti : ∀ a m n : Nat, m ≤ n → c.max_lf.ge a n = true → c.max_lf.ge a m = true)
    (plan : List Nat) :
    ∀ p q : Nat × Nat, followPlan c plan p = some q → (loadStep c)^[planCount plan] p = q := by
  induction plan with
  | nil =>
    intro p q h
    simp only [followPlan, Option.some.injEq] at h
    rw [← h]
    rfl
  | cons m rest ih =>
    intro p q h
    unfold followPlan at h
    by_cases hge : c.max_lf.ge (loadStep c p).1 ((loadStep c p).2 + m) = true
    · rw [if_pos hge] at h
      have hrun := loadStep_run c hanti m (loadStep c p).1 (loadStep c p).2 hge
      unfold planCount
      rw [Function.iterate_add_apply, Function.iterate_succ_apply, hrun]
      exact ih _ _ h
    · rw [if_neg hge] at h
      exact absurd h (by simp)

/-- C14 as the specification words it fails in single precision: the set made
from the 8808038 keys 0, 1, ..., 8808037 with the default `N = 11` has 12582911
buckets (the product `12582911 * 0.7f = 8808037.55...` is rounded to
`8808038.0`, so the last insertion passes the test of `reserve`), and
`10 * 8808038 > 7 * 12582911`. -/
theorem load_bound_fails :
    Reachable f32Params (ADS_set.ofRange f32Params (List.range 8808038)) ∧
      (ADS_set.ofRange f32Params (List.range 8808038)).table_size = 12582911 ∧
      (ADS_set.ofRange f32Params (List.range 8808038)).current_size = 8808038 ∧
      ¬ (10 * (ADS_set.ofRange f32Params (List.range 8808038)).current_size
          ≤ 7 * (ADS_set.ofRange f32Params (List.range 8808038)).table_size) := by
  have hplan : followPlan f32Params growthPlan (11, 0) = some (12582911, 8808038) := by
    decide
  have hcount : planCount growthPlan = 8808038 := by decide
  have hiter := followPlan_iterate f32Params f32Lf_monotone.2 growthPlan _ _ hplan
  rw [hcount] at hiter
  have hnew : WF f32Params (ADS_set.new f32Params) := new_wf f32Params (by decide)
  have hsizes := insertEach_sizes (c := f32Params) (List.range 8808038)
    (ADS_set.new f32Params) hnew (List.nodup_range _)
    (by intro k _; rw [new_keys]; simp)
  rw [List.length_range] at hsizes
  have hts0 : (ADS_set.new f32Params).table_size = 11 := by rw [new_eq]; rfl
  have hcs0 : (ADS_set.new f32Params).current_size = 0 := by rw [new_eq]
  rw [hts0, hcs0, hiter] at hsizes
  have heq : ADS_set.ofRange f32Params (List.range 8808038)
      = (ADS_set.new f32Params).insertEach f32Params (List.range 8808038) :=
    insertRange_eq_foldl _ _ _
  rw [heq]
  obtain ⟨h1, h2⟩ := Prod.mk.inj hsizes
  refine ⟨?_, h1, h2, ?_⟩
  · rw [← heq]
    exact Reachable.ofRange _
  · rw [h1, h2]
    decide

/-! ## The capacity that `rehash` takes -/

end ADS
